import Mathlib

/-!
Verification of the Hyper-V VMBus ring buffer core
(`drivers/hv/ring_buffer.c`).

The C code is shallowly embedded: the shared control block
(`struct hv_ring_buffer`) becomes a Lean structure whose circular data
region is a `List Nat` of byte values, the per-side bookkeeping
(`struct hv_ring_buffer_info`) becomes a structure holding it together
with the cached sizes, and the write/read entry points become pure
functions that return the updated state together with the C return code
and the values stored through the C out-parameters.  Machine integers
are modelled as `Nat` with an explicit `% 2 ^ 32` (resp. `% 2 ^ 64`)
wherever the C arithmetic can wrap.  Memory barriers and the local
spinlock have no observable effect in this sequential model; the `lock`
parameter of the write path is kept for signature fidelity.
-/

/-- The shared ring control block (`struct hv_ring_buffer`).  The data
region that follows the header in memory is `buffer`; all index fields
are byte offsets into it. -/
structure hv_ring_buffer where
  write_index : Nat
  read_index : Nat
  interrupt_mask : Nat
  pending_send_sz : Nat
  feature_bits_value : Nat
  buffer : List Nat
deriving Repr, DecidableEq

/-- Per-side bookkeeping (`struct hv_ring_buffer_info`) for the main
operations, which all dereference the control-block pointer: the mapped
control block plus the cached total and data-region sizes.  (The
diagnostics entry point, which checks the pointer for null, takes an
`Option hv_ring_buffer` instead; see `hv_ringbuffer_get_debuginfo`.) -/
structure hv_ring_buffer_info where
  ring_buffer : hv_ring_buffer
  ring_size : Nat
  ring_datasize : Nat
deriving Repr, DecidableEq

/-- Modelled from the spec: `hv_get_ringbuffer_availbytes` is declared in
the repository header `hyperv_vmbus.h`, which is not part of the provided
source.  The spec (section 3) defines available-to-read as
`(write_index - read_index) mod data_size` and available-to-write as
`data_size - available_to_read`.  Returns `(read, write)` like the C
out-parameters. -/
def hv_get_ringbuffer_availbytes (rb : hv_ring_buffer) (dsize : Nat) : Nat × Nat :=
  let read := (rb.write_index + dsize - rb.read_index) % dsize
  (read, dsize - read)

/-- `hv_get_next_write_location`: current write index. -/
def hv_get_next_write_location (ring_info : hv_ring_buffer_info) : Nat :=
  ring_info.ring_buffer.write_index

/-- `hv_set_next_write_location`: store a new write index. -/
def hv_set_next_write_location (ring_info : hv_ring_buffer_info)
    (next_write_location : Nat) : hv_ring_buffer_info :=
  { ring_info with
    ring_buffer := { ring_info.ring_buffer with write_index := next_write_location } }

/-- `hv_get_next_read_location`: current read index. -/
def hv_get_next_read_location (ring_info : hv_ring_buffer_info) : Nat :=
  ring_info.ring_buffer.read_index

/-- `hv_get_next_readlocation_withoffset`: read index advanced by
`offset`, reduced modulo the data-region size. -/
def hv_get_next_readlocation_withoffset (ring_info : hv_ring_buffer_info)
    (offset : Nat) : Nat :=
  (ring_info.ring_buffer.read_index + offset) % ring_info.ring_datasize

/-- `hv_set_next_read_location`: store a new read index. -/
def hv_set_next_read_location (ring_info : hv_ring_buffer_info)
    (next_read_location : Nat) : hv_ring_buffer_info :=
  { ring_info with
    ring_buffer := { ring_info.ring_buffer with read_index := next_read_location } }

/-- `hv_get_ring_buffersize`: cached data-region size. -/
def hv_get_ring_buffersize (ring_info : hv_ring_buffer_info) : Nat :=
  ring_info.ring_datasize

/-- `hv_get_ring_bufferindices`: the u64 value
`(u64)ring_info->ring_buffer->write_index << 32` (the write index in the
high 32 bits, zero low half). -/
def hv_get_ring_bufferindices (ring_info : hv_ring_buffer_info) : Nat :=
  ring_info.ring_buffer.write_index % 2 ^ 32 * 2 ^ 32

/-- A `memcpy` of `src` into `dst` starting at byte offset `off`
(meaningful when `off + src.length ≤ dst.length`). -/
def memcpy_at (dst : List Nat) (off : Nat) (src : List Nat) : List Nat :=
  dst.take off ++ src ++ dst.drop (off + src.length)

/-- `hv_copyfrom_ringbuffer`: copy `destlen` bytes out of the circular
data region starting at `start_read_offset`, splitting at the wrap
point; returns the bytes stored through `dest` and the post-read offset
(modulo the region size). -/
def hv_copyfrom_ringbuffer (ring_info : hv_ring_buffer_info)
    (destlen start_read_offset : Nat) : List Nat × Nat :=
  let ring_buffer := ring_info.ring_buffer.buffer
  let ring_buffer_size := hv_get_ring_buffersize ring_info
  let dest :=
    if destlen > ring_buffer_size - start_read_offset then
      let frag_len := ring_buffer_size - start_read_offset
      (ring_buffer.drop start_read_offset).take frag_len ++
        ring_buffer.take (destlen - frag_len)
    else
      (ring_buffer.drop start_read_offset).take destlen
  (dest, (start_read_offset + destlen) % ring_buffer_size)

/-- `hv_copyto_ringbuffer`: copy `src` into the circular data region
starting at `start_write_offset`, splitting at the wrap point; returns
the updated state and the post-write offset (modulo the region size). -/
def hv_copyto_ringbuffer (ring_info : hv_ring_buffer_info)
    (start_write_offset : Nat) (src : List Nat) : hv_ring_buffer_info × Nat :=
  let ring_buffer := ring_info.ring_buffer.buffer
  let ring_buffer_size := hv_get_ring_buffersize ring_info
  let srclen := src.length
  let ring_buffer' :=
    if srclen > ring_buffer_size - start_write_offset then
      let frag_len := ring_buffer_size - start_write_offset
      memcpy_at (memcpy_at ring_buffer start_write_offset (src.take frag_len)) 0
        (src.drop frag_len)
    else
      memcpy_at ring_buffer start_write_offset src
  ({ ring_info with ring_buffer := { ring_info.ring_buffer with buffer := ring_buffer' } },
   (start_write_offset + srclen) % ring_buffer_size)

/-- `hv_need_to_signal`: empty-to-non-empty signaling predicate used
after a write (memory barriers elided in the sequential model). -/
def hv_need_to_signal (old_write : Nat) (rbi : hv_ring_buffer_info) : Bool :=
  if rbi.ring_buffer.interrupt_mask ≠ 0 then false
  else if old_write = rbi.ring_buffer.read_index then true
  else false

/-- `hv_need_to_signal_on_read`: flow-control signaling predicate used
after a read. -/
def hv_need_to_signal_on_read (prev_write_sz : Nat) (rbi : hv_ring_buffer_info) : Bool :=
  let write_loc := rbi.ring_buffer.write_index
  let read_loc := rbi.ring_buffer.read_index
  let pending_sz := rbi.ring_buffer.pending_send_sz
  if pending_sz = 0 then false
  else
    let r_size := rbi.ring_datasize
    let cur_write_sz :=
      if write_loc ≥ read_loc then r_size - (write_loc - read_loc)
      else read_loc - write_loc
    decide (prev_write_sz < pending_sz ∧ cur_write_sz ≥ pending_sz)

/-- Modelled from the spec: `struct vmpacket_descriptor` is declared in
the repository header `include/linux/hyperv.h`, which is not part of the
provided source.  The spec (section 3) fixes its logical fields
(`offset8`, `len8`, `transaction_id`); the reference layout is four
little-endian u16 words (`type`, `offset8`, `len8`, `flags`) followed by
a little-endian u64 `trans_id`, 16 bytes in total. -/
def vmpacket_descriptor_size : Nat := 16

/-- Little-endian decoding of a u16 field at byte offset `off` (each
stored cell is truncated to a byte, as a machine load would). -/
def bytes_to_u16 (b : List Nat) (off : Nat) : Nat :=
  b.getD off 0 % 256 + b.getD (off + 1) 0 % 256 * 256

/-- Little-endian decoding of a u64 field at byte offset `off`. -/
def bytes_to_u64 (b : List Nat) (off : Nat) : Nat :=
  b.getD off 0 % 256 +
  b.getD (off + 1) 0 % 256 * 256 +
  b.getD (off + 2) 0 % 256 * 65536 +
  b.getD (off + 3) 0 % 256 * 16777216 +
  b.getD (off + 4) 0 % 256 * 4294967296 +
  b.getD (off + 5) 0 % 256 * 1099511627776 +
  b.getD (off + 6) 0 % 256 * 281474976710656 +
  b.getD (off + 7) 0 % 256 * 72057594037927936

/-- Little-endian encoding of a u64 value as 8 bytes (the image of
`memcpy`-ing a u64 variable, as the write path does with the trailing
back-link word `prev_indices`). -/
def u64_bytes (x : Nat) : List Nat :=
  [x % 256, x / 256 % 256, x / 65536 % 256, x / 16777216 % 256,
   x / 4294967296 % 256, x / 1099511627776 % 256,
   x / 281474976710656 % 256, x / 72057594037927936 % 256]

/-- Result of `hv_ringbuffer_write`: the C return value, the value left
in the `*signal` out-parameter (untouched on the error path, hence the
threaded initial value), and the state of the ring after the call. -/
structure WriteResult where
  ret : Int
  signal : Bool
  ring : hv_ring_buffer_info
deriving Repr, DecidableEq

/-- `hv_ringbuffer_write`: the write path.  `kv_list` models the
`struct kvec` array (each entry is the byte contents of one segment);
`signal0` is the value in `*signal` at entry; `lock` is the C `lock`
flag (the local spinlock has no observable effect sequentially).  The
`totalbytes_towrite` accumulation is u32 arithmetic, hence the
`% 2 ^ 32`. -/
def hv_ringbuffer_write (outring_info : hv_ring_buffer_info)
    (kv_list : List (List Nat)) (signal0 : Bool) (lock : Bool) : WriteResult :=
  let totalbytes_towrite :=
    (kv_list.foldl (fun acc kv => (acc + kv.length) % 2 ^ 32) 0 + 8) % 2 ^ 32
  let avail := hv_get_ringbuffer_availbytes outring_info.ring_buffer
    outring_info.ring_datasize
  let bytes_avail_towrite := avail.2
  if bytes_avail_towrite ≤ totalbytes_towrite then
    { ret := -11, signal := signal0, ring := outring_info }
  else
    let next_write_location := hv_get_next_write_location outring_info
    let old_write := next_write_location
    let step := kv_list.foldl
      (fun (st : hv_ring_buffer_info × Nat) kv =>
        hv_copyto_ringbuffer st.1 st.2 kv)
      (outring_info, next_write_location)
    let prev_indices := hv_get_ring_bufferindices step.1
    let step2 := hv_copyto_ringbuffer step.1 step.2 (u64_bytes prev_indices)
    let outring_info2 := hv_set_next_write_location step2.1 step2.2
    { ret := 0
      signal := hv_need_to_signal old_write outring_info2
      ring := outring_info2 }

/-- Result of `hv_ringbuffer_read`: the C return value, the bytes copied
into the caller's buffer (empty when no copy happened), the values left
in the `*buffer_actual_len`, `*requestid` and `*signal` out-parameters
(each keeps its threaded initial value on every path that does not store
to it), and the state of the ring after the call. -/
structure ReadResult where
  ret : Int
  buffer : List Nat
  buffer_actual_len : Nat
  requestid : Nat
  signal : Bool
  ring : hv_ring_buffer_info
deriving Repr, DecidableEq

/-- `hv_ringbuffer_read`: the read path.  `buflen` is the destination
capacity; `buffer_actual_len0`, `requestid0` and `signal0` are the
values in the out-parameters at entry.  `packetlen` is computed in u32
arithmetic (`(desc.len8 << 3) - offset` can wrap), hence the explicit
`% 2 ^ 32`. -/
def hv_ringbuffer_read (inring_info : hv_ring_buffer_info) (buflen : Nat)
    (buffer_actual_len0 requestid0 : Nat) (signal0 : Bool) (raw : Bool) :
    ReadResult :=
  if buflen ≤ 0 then
    { ret := -22
      buffer := []
      buffer_actual_len := buffer_actual_len0
      requestid := requestid0
      signal := signal0
      ring := inring_info }
  else
    let avail := hv_get_ringbuffer_availbytes inring_info.ring_buffer
      inring_info.ring_datasize
    let bytes_avail_toread := avail.1
    let bytes_avail_towrite := avail.2
    if bytes_avail_toread < vmpacket_descriptor_size then
      { ret := 0
        buffer := []
        buffer_actual_len := 0
        requestid := 0
        signal := signal0
        ring := inring_info }
    else
      let next_read_location := hv_get_next_read_location inring_info
      let descread := hv_copyfrom_ringbuffer inring_info vmpacket_descriptor_size
        next_read_location
      let desc := descread.1
      let offset := if raw then 0 else bytes_to_u16 desc 2 * 8
      let packetlen := (bytes_to_u16 desc 4 * 8 + 2 ^ 32 - offset) % 2 ^ 32
      let trans_id := bytes_to_u64 desc 8
      if bytes_avail_toread < (packetlen + offset) % 2 ^ 32 then
        { ret := -11
          buffer := []
          buffer_actual_len := packetlen
          requestid := trans_id
          signal := signal0
          ring := inring_info }
      else if packetlen > buflen then
        { ret := -105
          buffer := []
          buffer_actual_len := packetlen
          requestid := trans_id
          signal := signal0
          ring := inring_info }
      else
        let nrl2 := hv_get_next_readlocation_withoffset inring_info offset
        let payloadread := hv_copyfrom_ringbuffer inring_info packetlen nrl2
        let backlinkread := hv_copyfrom_ringbuffer inring_info 8 payloadread.2
        let inring_info' := hv_set_next_read_location inring_info backlinkread.2
        { ret := 0
          buffer := payloadread.1
          buffer_actual_len := packetlen
          requestid := trans_id
          signal := hv_need_to_signal_on_read bytes_avail_towrite inring_info'
          ring := inring_info' }

/-- The five-field debug snapshot (`struct hv_ring_buffer_debug_info`). -/
structure hv_ring_buffer_debug_info where
  bytes_avail_toread : Nat
  bytes_avail_towrite : Nat
  current_read_index : Nat
  current_write_index : Nat
  current_interrupt_mask : Nat
deriving Repr, DecidableEq

/-- `hv_ringbuffer_get_debuginfo`: the `Option` argument models the C
null check `if (ring_info->ring_buffer)`; when the pointer is null the
output structure is returned untouched. -/
def hv_ringbuffer_get_debuginfo (ring_buffer : Option hv_ring_buffer)
    (ring_datasize : Nat) (debug_info : hv_ring_buffer_debug_info) :
    hv_ring_buffer_debug_info :=
  match ring_buffer with
  | none => debug_info
  | some rb =>
      let avail := hv_get_ringbuffer_availbytes rb ring_datasize
      { bytes_avail_toread := avail.1
        bytes_avail_towrite := avail.2
        current_read_index := rb.read_index
        current_write_index := rb.write_index
        current_interrupt_mask := rb.interrupt_mask }

/-- `hv_ringbuffer_init`.  The C checks
`sizeof(struct hv_ring_buffer) != PAGE_SIZE`; both operands are platform
constants declared outside the provided source (modelled from the spec,
section 6: the header occupies a fixed prefix of the platform page) and
are therefore taken as parameters `hv_ring_buffer_struct_size` and
`page_size`.  `buffer` is the caller-supplied shared page: only
`read_index`, `write_index` and `feature_bits` are (re)initialized in
it. -/
def hv_ringbuffer_init (buffer : hv_ring_buffer) (buflen : Nat)
    (hv_ring_buffer_struct_size page_size : Nat) :
    Except Int hv_ring_buffer_info :=
  if hv_ring_buffer_struct_size ≠ page_size then
    Except.error (-22)
  else
    let rb := { buffer with
      read_index := 0
      write_index := 0
      feature_bits_value := 1 }
    Except.ok { ring_buffer := rb
                ring_size := buflen
                ring_datasize := buflen - hv_ring_buffer_struct_size }

/-! Modular view of the circular data region.  `ringGet buf i` is the
byte at modular offset `i`; `ringReadBytes buf start len` is the
`len`-byte slice starting at modular offset `start`.  The split-copy
helpers of the C are proved below to coincide with this view. -/

/-- Byte of the circular region at modular offset `i`. -/
def ringGet (buf : List Nat) (i : Nat) : Nat :=
  buf.getD (i % buf.length) 0

/-- Slice of `len` bytes of the circular region starting at modular
offset `start`. -/
def ringReadBytes (buf : List Nat) (start len : Nat) : List Nat :=
  (List.range len).map (fun i => ringGet buf (start + i))

theorem length_ringReadBytes (buf : List Nat) (s n : Nat) :
    (ringReadBytes buf s n).length = n := by
  simp [ringReadBytes]

theorem getD_ringReadBytes (buf : List Nat) (s n i : Nat) (h : i < n) :
    (ringReadBytes buf s n).getD i 0 = ringGet buf (s + i) := by
  simp [ringReadBytes, List.getD_eq_getElem?_getD, List.getElem?_map,
    List.getElem?_range h]

theorem ringReadBytes_mod (buf : List Nat) (s n : Nat) :
    ringReadBytes buf (s % buf.length) n = ringReadBytes buf s n := by
  simp [ringReadBytes, ringGet, Nat.mod_add_mod]

theorem ringReadBytes_add (buf : List Nat) (s a b : Nat) :
    ringReadBytes buf s (a + b) =
      ringReadBytes buf s a ++ ringReadBytes buf (s + a) b := by
  simp only [ringReadBytes, List.range_add, List.map_append, List.map_map]
  congr 1
  apply List.map_congr_left
  intro i _
  simp [Function.comp, Nat.add_assoc, Nat.add_comm a i, Nat.add_left_comm]

theorem getD_of_lt {l : List Nat} {n : Nat} (h : n < l.length) :
    l.getD n 0 = l[n] := by
  simp [List.getD_eq_getElem?_getD, List.getElem?_eq_getElem h]

theorem getD_take (l : List Nat) (n i : Nat) (h : i < n) :
    (l.take n).getD i 0 = l.getD i 0 := by
  simp [List.getD_eq_getElem?_getD, List.getElem?_take, h]

theorem getD_drop (l : List Nat) (n i : Nat) :
    (l.drop n).getD i 0 = l.getD (n + i) 0 := by
  simp [List.getD_eq_getElem?_getD, List.getElem?_drop]

theorem list_ext_getD {l₁ l₂ : List Nat} (hlen : l₁.length = l₂.length)
    (h : ∀ i, i < l₁.length → l₁.getD i 0 = l₂.getD i 0) : l₁ = l₂ := by
  apply List.ext_getElem hlen
  intro n h₁ h₂
  have := h n h₁
  rwa [getD_of_lt h₁, getD_of_lt h₂] at this

theorem mod_two_region {x d : Nat} (hd : 0 < d) (h : x < 2 * d) :
    x % d = if x < d then x else x - d := by
  split
  · exact Nat.mod_eq_of_lt (by omega)
  · rw [Nat.mod_eq_sub_mod (by omega)]
    exact Nat.mod_eq_of_lt (by omega)

theorem addMod_inj {d a b x : Nat} (ha : a < d) (hb : b < d)
    (h : (x + a) % d = (x + b) % d) : a = b := by
  have h2 : a ≡ b [MOD d] := Nat.ModEq.add_left_cancel' x h
  have h3 : a % d = b % d := h2
  rwa [Nat.mod_eq_of_lt ha, Nat.mod_eq_of_lt hb] at h3

/-! Pointwise characterization of `memcpy_at`. -/

theorem length_memcpy_at {dst src : List Nat} {off : Nat}
    (h : off + src.length ≤ dst.length) :
    (memcpy_at dst off src).length = dst.length := by
  simp [memcpy_at]
  omega

theorem memcpy_at_getD_in {dst src : List Nat} {off : Nat}
    (h : off + src.length ≤ dst.length) (i : Nat) (hi : i < src.length) :
    (memcpy_at dst off src).getD (off + i) 0 = src.getD i 0 := by
  unfold memcpy_at
  have htake : (dst.take off).length = off := by simp; omega
  rw [List.getD_append _ _ _ _ (by simp [htake]; omega)]
  rw [List.getD_append_right _ _ _ _ (by omega)]
  rw [htake]
  congr 1
  omega

theorem memcpy_at_getD_lt {dst src : List Nat} {off : Nat}
    (h : off + src.length ≤ dst.length) (k : Nat) (hk : k < off) :
    (memcpy_at dst off src).getD k 0 = dst.getD k 0 := by
  unfold memcpy_at
  have htake : (dst.take off).length = off := by simp; omega
  rw [List.getD_append _ _ _ _ (by simp [htake]; omega)]
  rw [List.getD_append _ _ _ _ (by omega)]
  exact getD_take _ _ _ hk

theorem memcpy_at_getD_ge {dst src : List Nat} {off : Nat}
    (h : off + src.length ≤ dst.length) (k : Nat) (hk : off + src.length ≤ k) :
    (memcpy_at dst off src).getD k 0 = dst.getD k 0 := by
  unfold memcpy_at
  have htake : (dst.take off).length = off := by simp; omega
  rw [List.getD_append_right _ _ _ _ (by simp [htake]; omega)]
  rw [getD_drop]
  congr 1
  simp [htake]
  omega

/-! The split copies of the C coincide with the modular view. -/

theorem copyfrom_spec (ring_info : hv_ring_buffer_info) (n s : Nat)
    (hb : ring_info.ring_buffer.buffer.length = ring_info.ring_datasize)
    (hd : 0 < ring_info.ring_datasize)
    (hs : s < ring_info.ring_datasize)
    (hn : n ≤ ring_info.ring_datasize) :
    hv_copyfrom_ringbuffer ring_info n s =
      (ringReadBytes ring_info.ring_buffer.buffer s n,
       (s + n) % ring_info.ring_datasize) := by
  set buf := ring_info.ring_buffer.buffer with hbuf
  set d := ring_info.ring_datasize with hdd
  unfold hv_copyfrom_ringbuffer
  simp only [hv_get_ring_buffersize, ← hdd, ← hbuf]
  refine Prod.ext ?_ rfl
  show (if n > d - s then
      (buf.drop s).take (d - s) ++ buf.take (n - (d - s))
    else (buf.drop s).take n) = ringReadBytes buf s n
  split
  · -- wraparound case
    rename_i hwrap
    apply list_ext_getD
    · simp [length_ringReadBytes]
      omega
    · intro i hi
      have hlen : ((buf.drop s).take (d - s) ++ buf.take (n - (d - s))).length = n := by
        simp
        omega
      rw [hlen] at hi
      rw [getD_ringReadBytes _ _ _ _ hi]
      unfold ringGet
      rw [hb]
      by_cases hcase : i < d - s
      · rw [List.getD_append _ _ _ _ (by simp; omega)]
        rw [getD_take _ _ _ hcase, getD_drop]
        congr 1
        rw [Nat.mod_eq_of_lt (by omega)]
      · rw [List.getD_append_right _ _ _ _ (by simp; omega)]
        have : ((buf.drop s).take (d - s)).length = d - s := by simp; omega
        rw [this, getD_take _ _ _ (by omega)]
        congr 1
        rw [mod_two_region hd (by omega)]
        simp only [if_neg (by omega : ¬ s + i < d)]
        omega
  · -- no wraparound
    rename_i hnowrap
    apply list_ext_getD
    · simp [length_ringReadBytes]
      omega
    · intro i hi
      have hlen : ((buf.drop s).take n).length = n := by simp; omega
      rw [hlen] at hi
      rw [getD_ringReadBytes _ _ _ _ hi]
      unfold ringGet
      rw [hb, getD_take _ _ _ hi, getD_drop]
      congr 1
      rw [Nat.mod_eq_of_lt (by omega)]

theorem copyfrom_snd (ring_info : hv_ring_buffer_info) (n s : Nat) :
    (hv_copyfrom_ringbuffer ring_info n s).2
      = (s + n) % ring_info.ring_datasize := rfl

theorem copyto_fields (ring_info : hv_ring_buffer_info) (s : Nat) (src : List Nat) :
    (hv_copyto_ringbuffer ring_info s src).1.ring_buffer.write_index
        = ring_info.ring_buffer.write_index ∧
    (hv_copyto_ringbuffer ring_info s src).1.ring_buffer.read_index
        = ring_info.ring_buffer.read_index ∧
    (hv_copyto_ringbuffer ring_info s src).1.ring_buffer.interrupt_mask
        = ring_info.ring_buffer.interrupt_mask ∧
    (hv_copyto_ringbuffer ring_info s src).1.ring_buffer.pending_send_sz
        = ring_info.ring_buffer.pending_send_sz ∧
    (hv_copyto_ringbuffer ring_info s src).1.ring_buffer.feature_bits_value
        = ring_info.ring_buffer.feature_bits_value ∧
    (hv_copyto_ringbuffer ring_info s src).1.ring_size = ring_info.ring_size ∧
    (hv_copyto_ringbuffer ring_info s src).1.ring_datasize = ring_info.ring_datasize := by
  unfold hv_copyto_ringbuffer
  refine ⟨rfl, rfl, rfl, rfl, rfl, rfl, rfl⟩

theorem copyto_snd (ring_info : hv_ring_buffer_info) (s : Nat) (src : List Nat) :
    (hv_copyto_ringbuffer ring_info s src).2
      = (s + src.length) % ring_info.ring_datasize := rfl

theorem copyto_length (ring_info : hv_ring_buffer_info) (s : Nat) (src : List Nat)
    (hb : ring_info.ring_buffer.buffer.length = ring_info.ring_datasize)
    (hs : s < ring_info.ring_datasize)
    (hsrc : src.length ≤ ring_info.ring_datasize) :
    (hv_copyto_ringbuffer ring_info s src).1.ring_buffer.buffer.length
      = ring_info.ring_datasize := by
  unfold hv_copyto_ringbuffer
  simp only [hv_get_ring_buffersize]
  split
  · rename_i hwrap
    rw [length_memcpy_at (by
      rw [length_memcpy_at (by simp [hb]; omega)]
      simp [hb]
      omega)]
    rw [length_memcpy_at (by simp [hb]; omega)]
    exact hb
  · rw [length_memcpy_at (by simp [hb]; omega)]
    exact hb

theorem copyto_getD_in (ring_info : hv_ring_buffer_info) (s : Nat) (src : List Nat)
    (hb : ring_info.ring_buffer.buffer.length = ring_info.ring_datasize)
    (hd : 0 < ring_info.ring_datasize)
    (hs : s < ring_info.ring_datasize)
    (hsrc : src.length ≤ ring_info.ring_datasize)
    (i : Nat) (hi : i < src.length) :
    (hv_copyto_ringbuffer ring_info s src).1.ring_buffer.buffer.getD
        ((s + i) % ring_info.ring_datasize) 0 = src.getD i 0 := by
  set d := ring_info.ring_datasize with hdd
  set buf := ring_info.ring_buffer.buffer with hbuf
  unfold hv_copyto_ringbuffer
  simp only [hv_get_ring_buffersize, ← hdd, ← hbuf]
  split
  · rename_i hwrap
    have hlen1 : (src.take (d - s)).length = d - s := by simp; omega
    have hmem1 : s + (src.take (d - s)).length ≤ buf.length := by
      rw [hlen1, hb]; omega
    have hlen2 : (memcpy_at buf s (src.take (d - s))).length = buf.length :=
      length_memcpy_at hmem1
    have hmem2 : 0 + (src.drop (d - s)).length
        ≤ (memcpy_at buf s (src.take (d - s))).length := by
      rw [hlen2, hb]; simp; omega
    by_cases hcase : i < d - s
    · rw [Nat.mod_eq_of_lt (by omega)]
      rw [memcpy_at_getD_ge hmem2 _ (by simp [hlen2]; omega)]
      rw [memcpy_at_getD_in hmem1 i (by rw [hlen1]; omega)]
      exact getD_take _ _ _ hcase
    · rw [mod_two_region hd (by omega), if_neg (by omega)]
      have : s + i - d < (src.drop (d - s)).length := by simp; omega
      have h0 : (0 : Nat) + (s + i - d) = s + i - d := by omega
      rw [← h0, memcpy_at_getD_in hmem2 _ (by simp; omega)]
      rw [getD_drop]
      congr 1
      omega
  · rename_i hnowrap
    rw [Nat.mod_eq_of_lt (by omega)]
    exact memcpy_at_getD_in (by rw [hb]; omega) i hi

theorem copyto_getD_out (ring_info : hv_ring_buffer_info) (s : Nat) (src : List Nat)
    (hb : ring_info.ring_buffer.buffer.length = ring_info.ring_datasize)
    (hd : 0 < ring_info.ring_datasize)
    (hs : s < ring_info.ring_datasize)
    (hsrc : src.length ≤ ring_info.ring_datasize)
    (k : Nat) (hk : k < ring_info.ring_datasize)
    (hout : ∀ i, i < src.length → (s + i) % ring_info.ring_datasize ≠ k) :
    (hv_copyto_ringbuffer ring_info s src).1.ring_buffer.buffer.getD k 0
      = ring_info.ring_buffer.buffer.getD k 0 := by
  set d := ring_info.ring_datasize with hdd
  set buf := ring_info.ring_buffer.buffer with hbuf
  unfold hv_copyto_ringbuffer
  simp only [hv_get_ring_buffersize, ← hdd, ← hbuf]
  split
  · rename_i hwrap
    have hlen1 : (src.take (d - s)).length = d - s := by simp; omega
    have hmem1 : s + (src.take (d - s)).length ≤ buf.length := by
      rw [hlen1, hb]; omega
    have hlen2 : (memcpy_at buf s (src.take (d - s))).length = buf.length :=
      length_memcpy_at hmem1
    have hmem2 : 0 + (src.drop (d - s)).length
        ≤ (memcpy_at buf s (src.take (d - s))).length := by
      rw [hlen2, hb]; simp; omega
    have hk1 : k < s := by
      by_contra hge
      exact hout (k - s) (by omega)
        (by rw [Nat.mod_eq_of_lt (by omega)]; omega)
    have hk2 : src.length - (d - s) ≤ k := by
      by_contra hlt
      refine hout (d - s + k) (by simp at hlt; omega) ?_
      have : s + (d - s + k) = d + k := by omega
      rw [this, Nat.add_mod_left]
      exact Nat.mod_eq_of_lt hk
    rw [memcpy_at_getD_ge hmem2 _ (by simp; omega)]
    exact memcpy_at_getD_lt hmem1 _ hk1
  · rename_i hnowrap
    have hmem : s + src.length ≤ buf.length := by rw [hb]; omega
    by_cases hk1 : k < s
    · exact memcpy_at_getD_lt hmem _ hk1
    · have hk2 : s + src.length ≤ k := by
        by_contra hlt
        exact hout (k - s) (by omega)
          (by rw [Nat.mod_eq_of_lt (by omega)]; omega)
      exact memcpy_at_getD_ge hmem _ hk2

theorem fold_copyto_fields (kv_list : List (List Nat)) (st : hv_ring_buffer_info × Nat) :
    (kv_list.foldl (fun (st : hv_ring_buffer_info × Nat) kv =>
        hv_copyto_ringbuffer st.1 st.2 kv) st).1.ring_buffer.write_index
      = st.1.ring_buffer.write_index ∧
    (kv_list.foldl (fun (st : hv_ring_buffer_info × Nat) kv =>
        hv_copyto_ringbuffer st.1 st.2 kv) st).1.ring_buffer.read_index
      = st.1.ring_buffer.read_index ∧
    (kv_list.foldl (fun (st : hv_ring_buffer_info × Nat) kv =>
        hv_copyto_ringbuffer st.1 st.2 kv) st).1.ring_buffer.interrupt_mask
      = st.1.ring_buffer.interrupt_mask ∧
    (kv_list.foldl (fun (st : hv_ring_buffer_info × Nat) kv =>
        hv_copyto_ringbuffer st.1 st.2 kv) st).1.ring_buffer.pending_send_sz
      = st.1.ring_buffer.pending_send_sz ∧
    (kv_list.foldl (fun (st : hv_ring_buffer_info × Nat) kv =>
        hv_copyto_ringbuffer st.1 st.2 kv) st).1.ring_buffer.feature_bits_value
      = st.1.ring_buffer.feature_bits_value ∧
    (kv_list.foldl (fun (st : hv_ring_buffer_info × Nat) kv =>
        hv_copyto_ringbuffer st.1 st.2 kv) st).1.ring_size = st.1.ring_size ∧
    (kv_list.foldl (fun (st : hv_ring_buffer_info × Nat) kv =>
        hv_copyto_ringbuffer st.1 st.2 kv) st).1.ring_datasize = st.1.ring_datasize := by
  induction kv_list generalizing st with
  | nil => exact ⟨rfl, rfl, rfl, rfl, rfl, rfl, rfl⟩
  | cons kv rest ih =>
      simp only [List.foldl_cons]
      have h1 := copyto_fields st.1 st.2 kv
      have h2 := ih (hv_copyto_ringbuffer st.1 st.2 kv)
      exact ⟨h2.1.trans h1.1, h2.2.1.trans h1.2.1, h2.2.2.1.trans h1.2.2.1,
        h2.2.2.2.1.trans h1.2.2.2.1, h2.2.2.2.2.1.trans h1.2.2.2.2.1,
        h2.2.2.2.2.2.1.trans h1.2.2.2.2.2.1, h2.2.2.2.2.2.2.trans h1.2.2.2.2.2.2⟩

theorem fold_copyto_spec (kv_list : List (List Nat)) (ring_info : hv_ring_buffer_info)
    (s : Nat)
    (hb : ring_info.ring_buffer.buffer.length = ring_info.ring_datasize)
    (hd : 0 < ring_info.ring_datasize)
    (hs : s < ring_info.ring_datasize)
    (hflat : kv_list.flatten.length ≤ ring_info.ring_datasize) :
    (kv_list.foldl (fun (st : hv_ring_buffer_info × Nat) kv =>
        hv_copyto_ringbuffer st.1 st.2 kv) (ring_info, s)).2
      = (s + kv_list.flatten.length) % ring_info.ring_datasize ∧
    (kv_list.foldl (fun (st : hv_ring_buffer_info × Nat) kv =>
        hv_copyto_ringbuffer st.1 st.2 kv)
        (ring_info, s)).1.ring_buffer.buffer.length = ring_info.ring_datasize ∧
    (∀ i, i < kv_list.flatten.length →
      (kv_list.foldl (fun (st : hv_ring_buffer_info × Nat) kv =>
          hv_copyto_ringbuffer st.1 st.2 kv)
          (ring_info, s)).1.ring_buffer.buffer.getD
          ((s + i) % ring_info.ring_datasize) 0 = kv_list.flatten.getD i 0) ∧
    (∀ k, k < ring_info.ring_datasize →
      (∀ i, i < kv_list.flatten.length → (s + i) % ring_info.ring_datasize ≠ k) →
      (kv_list.foldl (fun (st : hv_ring_buffer_info × Nat) kv =>
          hv_copyto_ringbuffer st.1 st.2 kv)
          (ring_info, s)).1.ring_buffer.buffer.getD k 0
        = ring_info.ring_buffer.buffer.getD k 0) := by
  induction kv_list generalizing ring_info s with
  | nil =>
      refine ⟨by simp [Nat.mod_eq_of_lt hs], hb, ?_, ?_⟩
      · intro i hi
        simp at hi
      · intro k _ _
        rfl
  | cons kv rest ih =>
      have hsum : kv.length + rest.flatten.length ≤ ring_info.ring_datasize := by
        rw [List.flatten_cons, List.length_append] at hflat
        exact hflat
      have hkv : kv.length ≤ ring_info.ring_datasize := by omega
      have hrest : rest.flatten.length ≤ ring_info.ring_datasize := by omega
      set d := ring_info.ring_datasize with hdd
      set info1 := (hv_copyto_ringbuffer ring_info s kv).1 with hinfo1
      have hfields := copyto_fields ring_info s kv
      have hd1 : info1.ring_datasize = d := hfields.2.2.2.2.2.2
      have hb1 : info1.ring_buffer.buffer.length = info1.ring_datasize := by
        rw [hd1]
        exact copyto_length ring_info s kv hb hs hkv
      have hsnd : (hv_copyto_ringbuffer ring_info s kv).2 = (s + kv.length) % d :=
        copyto_snd ring_info s kv
      have hs1 : (s + kv.length) % d < d := Nat.mod_lt _ hd
      have ihc := ih info1 ((s + kv.length) % d) hb1 (by rw [hd1]; exact hd)
        (by rw [hd1]; exact hs1) (by rw [hd1]; exact hrest)
      rw [hd1] at ihc
      simp only [List.foldl_cons]
      have hpair : hv_copyto_ringbuffer ring_info s kv
          = (info1, (s + kv.length) % d) := by
        rw [hinfo1, ← hsnd]
      rw [hpair]
      refine ⟨?_, ihc.2.1, ?_, ?_⟩
      · rw [ihc.1]
        simp only [List.flatten_cons, List.length_append]
        rw [Nat.mod_add_mod]
        congr 1
        omega
      · intro i hi
        simp only [List.flatten_cons, List.length_append] at hi
        by_cases hcase : i < kv.length
        · have huntouched : ∀ j, j < rest.flatten.length →
              ((s + kv.length) % d + j) % d ≠ (s + i) % d := by
            intro j hj heq
            rw [Nat.mod_add_mod] at heq
            have hrw : s + kv.length + j = s + (kv.length + j) := by omega
            rw [hrw] at heq
            have heq2 := addMod_inj (d := d) (a := kv.length + j) (b := i)
              (by omega) (by omega) heq
            omega
          rw [ihc.2.2.2 ((s + i) % d) (Nat.mod_lt _ hd) huntouched]
          rw [copyto_getD_in ring_info s kv hb hd hs hkv i hcase]
          simp only [List.flatten_cons]
          exact (List.getD_append _ _ _ _ hcase).symm
        · have hi' : i - kv.length < rest.flatten.length := by omega
          have hidx : s + i = s + kv.length + (i - kv.length) := by omega
          have hgot := ihc.2.2.1 (i - kv.length) hi'
          rw [Nat.mod_add_mod] at hgot
          rw [hidx, hgot]
          simp only [List.flatten_cons]
          rw [List.getD_append_right _ _ _ _ (by omega)]
      · intro k hk hout
        have hout1 : ∀ j, j < rest.flatten.length →
            ((s + kv.length) % d + j) % d ≠ k := by
          intro j hj
          rw [Nat.mod_add_mod]
          have hrw : s + kv.length + j = s + (kv.length + j) := by omega
          rw [hrw]
          refine hout (kv.length + j) ?_
          rw [List.flatten_cons, List.length_append]
          omega
        rw [ihc.2.2.2 k hk hout1]
        refine copyto_getD_out ring_info s kv hb hd hs hkv k hk ?_
        intro i hi
        refine hout i ?_
        rw [List.flatten_cons, List.length_append]
        omega

/-! Abstract packets.  A producer-side packet is a descriptor (type,
flags, transaction id), an optional extra header (the bytes between the
16-byte descriptor and the payload, present when `offset8 > 2`), and the
payload.  `pktBytes` is its on-ring image: exactly the bytes a conforming
caller passes to `hv_ringbuffer_write` through the segment list, with
`offset8`/`len8` measured in 8-byte units as the read path decodes them. -/

structure AbsPacket where
  ptype : Nat
  flags : Nat
  trans_id : Nat
  hdr_extra : List Nat
  payload : List Nat
deriving Repr, DecidableEq

/-- Header length of a packet in 8-byte units (`offset8`). -/
def pkt_offset8 (p : AbsPacket) : Nat := (16 + p.hdr_extra.length) / 8

/-- Total packet length (descriptor + extra header + payload, back-link
excluded) in 8-byte units (`len8`). -/
def pkt_len8 (p : AbsPacket) : Nat :=
  (16 + p.hdr_extra.length + p.payload.length) / 8

/-- Little-endian encoding of a u16 value as 2 bytes. -/
def u16_bytes (x : Nat) : List Nat := [x % 256, x / 256 % 256]

/-- On-ring encoding of a packet's 16-byte descriptor. -/
def descBytes (p : AbsPacket) : List Nat :=
  u16_bytes p.ptype ++ u16_bytes (pkt_offset8 p) ++ u16_bytes (pkt_len8 p) ++
    u16_bytes p.flags ++ u64_bytes p.trans_id

/-- On-ring image of a packet (without the trailing back-link word). -/
def pktBytes (p : AbsPacket) : List Nat :=
  descBytes p ++ p.hdr_extra ++ p.payload

/-- Bytes a packet occupies on the ring, back-link word included. -/
def frameLen (p : AbsPacket) : Nat := (pktBytes p).length + 8

/-- Bytes a queue of packets occupies on the ring. -/
def framesLen (q : List AbsPacket) : Nat := (q.map frameLen).sum

/-- Well-formedness of a packet: 8-byte alignment of the header and the
payload (so that `offset8`/`len8` encode their lengths exactly) and u16/
u64 range bounds on the descriptor fields. -/
def wfPacket (p : AbsPacket) : Prop :=
  p.hdr_extra.length % 8 = 0 ∧ p.payload.length % 8 = 0 ∧
  p.ptype < 2 ^ 16 ∧ p.flags < 2 ^ 16 ∧ p.trans_id < 2 ^ 64 ∧
  pkt_len8 p < 2 ^ 16

/-- The data region holds the images of the queued packets back to back
starting at offset `r`, each followed by its (unconstrained) 8-byte
back-link word. -/
def framesOK (buf : List Nat) (d r : Nat) : List AbsPacket → Bool
  | [] => true
  | p :: rest =>
      (ringReadBytes buf r (pktBytes p).length == pktBytes p) &&
        framesOK buf d ((r + frameLen p) % d) rest

/-- Coupling invariant between a ring state and the abstract FIFO queue
of its unread packets. -/
def RingInv (info : hv_ring_buffer_info) (q : List AbsPacket) : Prop :=
  info.ring_buffer.buffer.length = info.ring_datasize ∧
  0 < info.ring_datasize ∧
  info.ring_buffer.read_index < info.ring_datasize ∧
  info.ring_buffer.write_index < info.ring_datasize ∧
  (info.ring_buffer.write_index + info.ring_datasize -
      info.ring_buffer.read_index) % info.ring_datasize = framesLen q ∧
  (∀ p ∈ q, wfPacket p) ∧
  framesOK info.ring_buffer.buffer info.ring_datasize
    info.ring_buffer.read_index q = true

theorem length_u16_bytes (x : Nat) : (u16_bytes x).length = 2 := rfl

theorem length_u64_bytes (x : Nat) : (u64_bytes x).length = 8 := rfl

theorem length_descBytes (p : AbsPacket) : (descBytes p).length = 16 := by
  simp [descBytes, u16_bytes, u64_bytes]

theorem length_pktBytes (p : AbsPacket) (h : wfPacket p) :
    (pktBytes p).length = pkt_len8 p * 8 := by
  obtain ⟨h1, h2, -, -, -, -⟩ := h
  simp [pktBytes, length_descBytes, pkt_len8]
  omega

theorem pkt_offset8_mul (p : AbsPacket) (h : wfPacket p) :
    pkt_offset8 p * 8 = 16 + p.hdr_extra.length := by
  obtain ⟨h1, -, -, -, -, -⟩ := h
  unfold pkt_offset8
  omega

theorem pkt_len8_mul (p : AbsPacket) (h : wfPacket p) :
    pkt_len8 p * 8 = 16 + p.hdr_extra.length + p.payload.length := by
  obtain ⟨h1, h2, -, -, -, -⟩ := h
  unfold pkt_len8
  omega

theorem pkt_offset8_lt (p : AbsPacket) (h : wfPacket p) :
    pkt_offset8 p < 2 ^ 16 := by
  have h1 := h.2.2.2.2.2
  have : pkt_offset8 p ≤ pkt_len8 p := by
    unfold pkt_offset8 pkt_len8
    exact Nat.div_le_div_right (by omega)
  omega

theorem descBytes_explicit (p : AbsPacket) :
    descBytes p =
      [p.ptype % 256, p.ptype / 256 % 256,
       pkt_offset8 p % 256, pkt_offset8 p / 256 % 256,
       pkt_len8 p % 256, pkt_len8 p / 256 % 256,
       p.flags % 256, p.flags / 256 % 256,
       p.trans_id % 256, p.trans_id / 256 % 256, p.trans_id / 65536 % 256,
       p.trans_id / 16777216 % 256, p.trans_id / 4294967296 % 256,
       p.trans_id / 1099511627776 % 256, p.trans_id / 281474976710656 % 256,
       p.trans_id / 72057594037927936 % 256] := by
  simp [descBytes, u16_bytes, u64_bytes]

theorem decode_offset8 (p : AbsPacket) (h : wfPacket p) :
    bytes_to_u16 (descBytes p) 2 = pkt_offset8 p := by
  have hb := pkt_offset8_lt p h
  rw [descBytes_explicit]
  simp only [bytes_to_u16, List.getD_cons_succ, List.getD_cons_zero]
  omega

theorem decode_len8 (p : AbsPacket) (h : wfPacket p) :
    bytes_to_u16 (descBytes p) 4 = pkt_len8 p := by
  have hb := h.2.2.2.2.2
  rw [descBytes_explicit]
  simp only [bytes_to_u16, List.getD_cons_succ, List.getD_cons_zero]
  omega

theorem decode_trans_id (p : AbsPacket) (h : wfPacket p) :
    bytes_to_u64 (descBytes p) 8 = p.trans_id := by
  have hb := h.2.2.2.2.1
  rw [descBytes_explicit]
  simp only [bytes_to_u64, List.getD_cons_succ, List.getD_cons_zero]
  omega

theorem decode_u64_bytes (x : Nat) (h : x < 2 ^ 64) :
    bytes_to_u64 (u64_bytes x) 0 = x := by
  simp only [bytes_to_u64, u64_bytes, List.getD_cons_succ, List.getD_cons_zero]
  omega

theorem framesLen_nil : framesLen [] = 0 := rfl

theorem framesLen_cons (p : AbsPacket) (q : List AbsPacket) :
    framesLen (p :: q) = frameLen p + framesLen q := by
  simp [framesLen]

theorem framesLen_append (q₁ q₂ : List AbsPacket) :
    framesLen (q₁ ++ q₂) = framesLen q₁ + framesLen q₂ := by
  simp [framesLen]

theorem frameLen_ge (p : AbsPacket) : 24 ≤ frameLen p := by
  simp [frameLen, pktBytes, length_descBytes]

theorem framesOK_cons (buf : List Nat) (d r : Nat) (p : AbsPacket)
    (rest : List AbsPacket) :
    framesOK buf d r (p :: rest) = true ↔
      (ringReadBytes buf r (pktBytes p).length = pktBytes p ∧
       framesOK buf d ((r + frameLen p) % d) rest = true) := by
  simp [framesOK]

theorem ringGet_mod_add (buf : List Nat) (x y : Nat) :
    ringGet buf (x % buf.length + y) = ringGet buf (x + y) := by
  simp [ringGet, Nat.mod_add_mod]

theorem framesOK_append_iff (buf : List Nat) (d : Nat) (q₁ q₂ : List AbsPacket)
    (hd : 0 < d) :
    ∀ r, r < d →
    (framesOK buf d r (q₁ ++ q₂) = true ↔
      (framesOK buf d r q₁ = true ∧
       framesOK buf d ((r + framesLen q₁) % d) q₂ = true)) := by
  induction q₁ with
  | nil =>
      intro r hr
      rw [framesLen_nil, Nat.add_zero, Nat.mod_eq_of_lt hr]
      simp [framesOK]
  | cons p rest ih =>
      intro r hr
      rw [List.cons_append, framesOK_cons, framesOK_cons,
        ih ((r + frameLen p) % d) (Nat.mod_lt _ hd)]
      rw [framesLen_cons, Nat.mod_add_mod, ← Nat.add_assoc]
      tauto

theorem framesOK_congr (buf buf' : List Nat) (d : Nat) (q : List AbsPacket)
    (hb : buf.length = d) (hb' : buf'.length = d) (hd : 0 < d) :
    ∀ r, (∀ i, i < framesLen q → ringGet buf' (r + i) = ringGet buf (r + i)) →
    framesOK buf' d r q = framesOK buf d r q := by
  induction q with
  | nil => intro r _; rfl
  | cons p rest ih =>
      intro r heq
      have hhead : ringReadBytes buf' r (pktBytes p).length
          = ringReadBytes buf r (pktBytes p).length := by
        apply list_ext_getD
        · rw [length_ringReadBytes, length_ringReadBytes]
        · intro i hi
          rw [length_ringReadBytes] at hi
          rw [getD_ringReadBytes _ _ _ _ hi, getD_ringReadBytes _ _ _ _ hi]
          refine heq i ?_
          rw [framesLen_cons]
          have := frameLen_ge p
          simp only [frameLen] at this ⊢
          omega
      have htail : ∀ i, i < framesLen rest →
          ringGet buf' ((r + frameLen p) % d + i)
            = ringGet buf ((r + frameLen p) % d + i) := by
        intro i hi
        have h1 : ((r + frameLen p) % d + i) % d = (r + (frameLen p + i)) % d := by
          rw [Nat.mod_add_mod, Nat.add_assoc]
        have h2 := heq (frameLen p + i) (by rw [framesLen_cons]; omega)
        simp only [ringGet, hb, hb'] at h2 ⊢
        rw [h1]
        exact h2
      show ((ringReadBytes buf' r (pktBytes p).length == pktBytes p) &&
          framesOK buf' d ((r + frameLen p) % d) rest)
        = ((ringReadBytes buf r (pktBytes p).length == pktBytes p) &&
          framesOK buf d ((r + frameLen p) % d) rest)
      rw [hhead, ih ((r + frameLen p) % d) htail]

theorem write_index_eq {w r m d : Nat} (hw : w < d) (hr : r < d)
    (havail : (w + d - r) % d = m) : w = (r + m) % d := by
  have hd : 0 < d := by omega
  have hm : m < d := by
    rw [← havail]
    exact Nat.mod_lt _ hd
  rw [mod_two_region hd (by omega)] at havail
  rw [mod_two_region hd (by omega : r + m < 2 * d)]
  split at havail <;> (split <;> omega)

theorem avail_after_write {r m f d : Nat} (hr : r < d) (hmf : m + f < d) :
    ((r + m + f) % d + d - r) % d = m + f := by
  have h1 : (r + m + f) % d = if r + m + f < d then r + m + f else r + m + f - d :=
    mod_two_region (by omega) (by omega)
  rw [h1]
  split
  · rw [mod_two_region (by omega) (by omega)]
    split <;> omega
  · rw [mod_two_region (by omega) (by omega)]
    split <;> omega

theorem avail_after_advance {r m a d : Nat} (hd : 0 < d) (hr : r < d)
    (hm : m < d) (ha : a ≤ m) :
    ((r + m) % d + d - (r + a) % d) % d = m - a := by
  have h1 : (r + m) % d = if r + m < d then r + m else r + m - d :=
    mod_two_region (by omega) (by omega)
  have h2 : (r + a) % d = if r + a < d then r + a else r + a - d :=
    mod_two_region (by omega) (by omega)
  rw [h1, h2]
  split <;> split <;>
    (rw [mod_two_region (by omega) (by omega)]; split <;> omega)

theorem fold_mod_sum (kv_list : List (List Nat)) :
    ∀ acc, acc + (kv_list.map List.length).sum < 2 ^ 32 →
    kv_list.foldl (fun acc kv => (acc + kv.length) % 2 ^ 32) acc
      = acc + (kv_list.map List.length).sum := by
  induction kv_list with
  | nil => intro acc _; simp
  | cons kv rest ih =>
      intro acc hacc
      simp only [List.map_cons, List.sum_cons] at hacc
      simp only [List.foldl_cons, List.map_cons, List.sum_cons]
      rw [Nat.mod_eq_of_lt (by omega)]
      rw [ih (acc + kv.length) (by omega)]
      omega

theorem set_write_fields (ring_info : hv_ring_buffer_info) (v : Nat) :
    (hv_set_next_write_location ring_info v).ring_buffer.write_index = v ∧
    (hv_set_next_write_location ring_info v).ring_buffer.read_index
      = ring_info.ring_buffer.read_index ∧
    (hv_set_next_write_location ring_info v).ring_buffer.interrupt_mask
      = ring_info.ring_buffer.interrupt_mask ∧
    (hv_set_next_write_location ring_info v).ring_buffer.pending_send_sz
      = ring_info.ring_buffer.pending_send_sz ∧
    (hv_set_next_write_location ring_info v).ring_buffer.buffer
      = ring_info.ring_buffer.buffer ∧
    (hv_set_next_write_location ring_info v).ring_datasize
      = ring_info.ring_datasize := by
  exact ⟨rfl, rfl, rfl, rfl, rfl, rfl⟩

theorem set_read_fields (ring_info : hv_ring_buffer_info) (v : Nat) :
    (hv_set_next_read_location ring_info v).ring_buffer.read_index = v ∧
    (hv_set_next_read_location ring_info v).ring_buffer.write_index
      = ring_info.ring_buffer.write_index ∧
    (hv_set_next_read_location ring_info v).ring_buffer.interrupt_mask
      = ring_info.ring_buffer.interrupt_mask ∧
    (hv_set_next_read_location ring_info v).ring_buffer.pending_send_sz
      = ring_info.ring_buffer.pending_send_sz ∧
    (hv_set_next_read_location ring_info v).ring_buffer.buffer
      = ring_info.ring_buffer.buffer ∧
    (hv_set_next_read_location ring_info v).ring_datasize
      = ring_info.ring_datasize := by
  exact ⟨rfl, rfl, rfl, rfl, rfl, rfl⟩

theorem hv_write_append (ring_info : hv_ring_buffer_info) (q : List AbsPacket)
    (p : AbsPacket) (kv_list : List (List Nat)) (signal0 lock : Bool)
    (hinv : RingInv ring_info q) (hwf : wfPacket p)
    (hkv : kv_list.flatten = pktBytes p)
    (hroom : framesLen q + frameLen p < ring_info.ring_datasize) :
    (hv_ringbuffer_write ring_info kv_list signal0 lock).ret = 0 ∧
    RingInv (hv_ringbuffer_write ring_info kv_list signal0 lock).ring (q ++ [p]) := by
  obtain ⟨hb, hd, hr, hw, havail, hwfq, hframes⟩ := hinv
  set d := ring_info.ring_datasize with hdd
  set r := ring_info.ring_buffer.read_index with hrr
  set w := ring_info.ring_buffer.write_index with hww
  have hlen8 : pkt_len8 p < 65536 := by
    have h1 := hwf.2.2.2.2.2
    omega
  have hLlen : (pktBytes p).length = pkt_len8 p * 8 := length_pktBytes p hwf
  have hframe_eq : frameLen p = (pktBytes p).length + 8 := rfl
  have hm_lt : framesLen q < d := by
    rw [← havail]
    exact Nat.mod_lt _ hd
  have hLd : (pktBytes p).length + 8 + framesLen q < d := by omega
  have hflatlen : kv_list.flatten.length = (pktBytes p).length := by rw [hkv]
  have hmaplen : (kv_list.map List.length).sum = (pktBytes p).length := by
    rw [← List.length_flatten, hflatlen]
  have htotal : kv_list.foldl (fun acc kv => (acc + kv.length) % 2 ^ 32) 0
      = (pktBytes p).length := by
    rw [fold_mod_sum kv_list 0 (by rw [hmaplen]; omega), hmaplen]
    omega
  have havail2 : (hv_get_ringbuffer_availbytes ring_info.ring_buffer d).2
      = d - framesLen q := by
    simp only [hv_get_ringbuffer_availbytes]
    rw [← hww, ← hrr, havail]
  have hcond : ¬ ((hv_get_ringbuffer_availbytes ring_info.ring_buffer
      ring_info.ring_datasize).2
      ≤ (kv_list.foldl (fun acc kv => (acc + kv.length) % 2 ^ 32) 0 + 8) % 2 ^ 32) := by
    rw [← hdd, havail2, htotal, Nat.mod_eq_of_lt (by omega)]
    omega
  set step := kv_list.foldl
    (fun (st : hv_ring_buffer_info × Nat) kv => hv_copyto_ringbuffer st.1 st.2 kv)
    (ring_info, w) with hstep
  set step2 := hv_copyto_ringbuffer step.1 step.2
    (u64_bytes (hv_get_ring_bufferindices step.1)) with hstep2
  have hwrite : hv_ringbuffer_write ring_info kv_list signal0 lock =
      { ret := 0
        signal := hv_need_to_signal w (hv_set_next_write_location step2.1 step2.2)
        ring := hv_set_next_write_location step2.1 step2.2 } := by
    rw [hstep2, hstep]
    simp only [hv_ringbuffer_write, hv_get_next_write_location, ← hww, ← hdd]
    rw [if_neg hcond]
  rw [hwrite]
  refine ⟨rfl, ?_⟩
  -- facts about the segment-copy fold
  have hfold := fold_copyto_spec kv_list ring_info w hb hd hw
    (by rw [hflatlen]; omega)
  rw [← hstep] at hfold
  obtain ⟨hsnd, hblen, hin, hout⟩ := hfold
  rw [hflatlen] at hsnd
  simp only [hkv] at hin
  have hff := fold_copyto_fields kv_list (ring_info, w)
  rw [← hstep] at hff
  have hd1 : step.1.ring_datasize = d := hff.2.2.2.2.2.2
  have hb1 : step.1.ring_buffer.buffer.length = step.1.ring_datasize := by
    rw [hd1]
    exact hblen
  have hs1 : step.2 < step.1.ring_datasize := by
    rw [hd1, hsnd]
    exact Nat.mod_lt _ hd
  have hbl8 : (u64_bytes (hv_get_ring_bufferindices step.1)).length
      ≤ step.1.ring_datasize := by
    rw [length_u64_bytes, hd1]
    omega
  have hfields2 := copyto_fields step.1 step.2
    (u64_bytes (hv_get_ring_bufferindices step.1))
  rw [← hstep2] at hfields2
  have hd2 : step2.1.ring_datasize = d := by rw [hfields2.2.2.2.2.2.2, hd1]
  have hb2len : step2.1.ring_buffer.buffer.length = d := by
    have := copyto_length step.1 step.2
      (u64_bytes (hv_get_ring_bufferindices step.1)) hb1 hs1 hbl8
    rw [← hstep2] at this
    rw [this, hd1]
  have hsnd2 : step2.2 = ((w + (pktBytes p).length) % d + 8) % d := by
    rw [hstep2, copyto_snd, length_u64_bytes, hd1, ← hsnd]
  -- the final ring state
  have hfr := set_write_fields step2.1 step2.2
  have hread2 : step2.1.ring_buffer.read_index = r := by
    rw [hfields2.2.1, hff.2.1]
  have hwq : w = (r + framesLen q) % d := write_index_eq hw hr havail
  -- untouched bytes: everything outside the new frame keeps its value
  have huntouched : ∀ k, k < d → (∀ t, t < (pktBytes p).length + 8 →
      (w + t) % d ≠ k) →
      step2.1.ring_buffer.buffer.getD k 0
        = ring_info.ring_buffer.buffer.getD k 0 := by
    intro k hk hnot
    have h8 : ∀ j, j < (u64_bytes (hv_get_ring_bufferindices step.1)).length →
        (step.2 + j) % step.1.ring_datasize ≠ k := by
      intro j hj
      rw [length_u64_bytes] at hj
      rw [hd1, hsnd, Nat.mod_add_mod]
      have hrw : w + (pktBytes p).length + j = w + ((pktBytes p).length + j) := by
        omega
      rw [hrw]
      exact hnot ((pktBytes p).length + j) (by omega)
    have hco := copyto_getD_out step.1 step.2
      (u64_bytes (hv_get_ring_bufferindices step.1)) hb1 (by rw [hd1]; exact hd)
      hs1 hbl8 k (by rw [hd1]; exact hk) h8
    rw [← hstep2] at hco
    rw [hco]
    exact hout k hk (fun i hi => hnot i (by omega))
  -- the new frame's bytes are in place
  have hcontent : ∀ i, i < (pktBytes p).length →
      step2.1.ring_buffer.buffer.getD ((w + i) % d) 0 = (pktBytes p).getD i 0 := by
    intro i hi
    have h8 : ∀ j, j < (u64_bytes (hv_get_ring_bufferindices step.1)).length →
        (step.2 + j) % step.1.ring_datasize ≠ (w + i) % d := by
      intro j hj heq
      rw [length_u64_bytes] at hj
      rw [hd1, hsnd, Nat.mod_add_mod] at heq
      have hrw : w + (pktBytes p).length + j
          = w + ((pktBytes p).length + j) := by omega
      rw [hrw] at heq
      have := addMod_inj (d := d) (by omega) (by omega) heq
      omega
    have hco := copyto_getD_out step.1 step.2
      (u64_bytes (hv_get_ring_bufferindices step.1)) hb1 (by rw [hd1]; exact hd)
      hs1 hbl8 ((w + i) % d) (by rw [hd1]; exact Nat.mod_lt _ hd) h8
    rw [← hstep2] at hco
    rw [hco]
    exact hin i hi
  -- old frames survive
  have hcong : ∀ i, i < framesLen q →
      ringGet step2.1.ring_buffer.buffer (r + i)
        = ringGet ring_info.ring_buffer.buffer (r + i) := by
    intro i hi
    have hnot : ∀ t, t < (pktBytes p).length + 8 → (w + t) % d ≠ (r + i) % d := by
      intro t ht heq
      rw [hwq, Nat.mod_add_mod] at heq
      have hrw : r + framesLen q + t = r + (framesLen q + t) := by omega
      rw [hrw] at heq
      have := addMod_inj (d := d) (by omega) (by omega) heq
      omega
    simp only [ringGet, hb2len, hb, ← hdd]
    exact huntouched ((r + i) % d) (Nat.mod_lt _ hd) hnot
  have hold_frames : framesOK step2.1.ring_buffer.buffer d r q = true := by
    rw [framesOK_congr ring_info.ring_buffer.buffer step2.1.ring_buffer.buffer d q
      hb hb2len hd r hcong]
    exact hframes
  have hnew_frame :
      framesOK step2.1.ring_buffer.buffer d ((r + framesLen q) % d) [p] = true := by
    rw [show ((r + framesLen q) % d) = w from hwq.symm]
    rw [framesOK_cons]
    refine ⟨?_, by trivial⟩
    apply list_ext_getD
    · rw [length_ringReadBytes]
    · intro i hi
      rw [length_ringReadBytes] at hi
      rw [getD_ringReadBytes _ _ _ _ hi]
      simp only [ringGet, hb2len]
      exact hcontent i hi
  have hw2 : step2.2 = (r + framesLen q + ((pktBytes p).length + 8)) % d := by
    rw [hsnd2, Nat.mod_add_mod, hwq, Nat.add_assoc, Nat.mod_add_mod]
  simp only [RingInv, hfr.1, hfr.2.1, hfr.2.2.2.2.1, hfr.2.2.2.2.2, hd2, hread2,
    hb2len]
  refine ⟨trivial, hd, hr, ?_, ?_, ?_, ?_⟩
  · rw [hw2]
    exact Nat.mod_lt _ hd
  · rw [hw2, framesLen_append, framesLen_cons, framesLen_nil, hframe_eq]
    have hfin := avail_after_write (r := r) (m := framesLen q)
      (f := (pktBytes p).length + 8) (d := d) hr (by omega)
    omega
  · intro p' hp'
    rcases List.mem_append.mp hp' with hmem | hmem
    · exact hwfq p' hmem
    · rw [List.mem_singleton.mp hmem]
      exact hwf
  · exact (framesOK_append_iff step2.1.ring_buffer.buffer d q [p] hd r hr).mpr
      ⟨hold_frames, hnew_frame⟩

theorem ringReadBytes_mod' (buf : List Nat) (s n d : Nat) (hb : buf.length = d) :
    ringReadBytes buf (s % d) n = ringReadBytes buf s n := by
  subst hb
  exact ringReadBytes_mod buf s n

theorem mod_chain (x a b d : Nat) :
    ((x % d + a) % d + b) % d = (x + a + b) % d := by
  rw [Nat.mod_add_mod x d a, Nat.mod_add_mod]

/-- Descriptor bytes exactly as the read path copies them out of the
ring at the current read index. -/
def read_descriptor (ring_info : hv_ring_buffer_info) : List Nat :=
  (hv_copyfrom_ringbuffer ring_info vmpacket_descriptor_size
    (hv_get_next_read_location ring_info)).1

/-- Header skip the read path applies (`raw ? 0 : desc.offset8 << 3`). -/
def read_offset (ring_info : hv_ring_buffer_info) (raw : Bool) : Nat :=
  if raw then 0 else bytes_to_u16 (read_descriptor ring_info) 2 * 8

/-- Decoded payload length (`(desc.len8 << 3) - offset` in u32
arithmetic). -/
def read_packetlen (ring_info : hv_ring_buffer_info) (raw : Bool) : Nat :=
  (bytes_to_u16 (read_descriptor ring_info) 4 * 8 + 2 ^ 32
    - read_offset ring_info raw) % 2 ^ 32

/-- Decoded transaction id of the packet at the current read index. -/
def read_trans_id (ring_info : hv_ring_buffer_info) : Nat :=
  bytes_to_u64 (read_descriptor ring_info) 8

theorem hv_read_head (ring_info : hv_ring_buffer_info) (p : AbsPacket)
    (q : List AbsPacket) (buflen buffer_actual_len0 requestid0 : Nat)
    (signal0 raw : Bool)
    (hinv : RingInv ring_info (p :: q))
    (hcap : (if raw then (pktBytes p).length else p.payload.length) ≤ buflen)
    (hpos : 0 < buflen) :
    (hv_ringbuffer_read ring_info buflen buffer_actual_len0 requestid0
        signal0 raw).ret = 0 ∧
    (hv_ringbuffer_read ring_info buflen buffer_actual_len0 requestid0
        signal0 raw).buffer = (if raw then pktBytes p else p.payload) ∧
    (hv_ringbuffer_read ring_info buflen buffer_actual_len0 requestid0
        signal0 raw).buffer_actual_len
      = (if raw then (pktBytes p).length else p.payload.length) ∧
    (hv_ringbuffer_read ring_info buflen buffer_actual_len0 requestid0
        signal0 raw).requestid = p.trans_id ∧
    RingInv (hv_ringbuffer_read ring_info buflen buffer_actual_len0 requestid0
        signal0 raw).ring q := by
  obtain ⟨hb, hd, hr, hw, havail, hwfq, hframes⟩ := hinv
  set d := ring_info.ring_datasize with hdd
  set r := ring_info.ring_buffer.read_index with hrr
  set w := ring_info.ring_buffer.write_index with hww
  have hwfp : wfPacket p := hwfq p (List.mem_cons_self p q)
  have hwfq' : ∀ p' ∈ q, wfPacket p' := fun p' hp' =>
    hwfq p' (List.mem_cons_of_mem p hp')
  rw [framesOK_cons] at hframes
  obtain ⟨hhead, htail⟩ := hframes
  have hlen8 : pkt_len8 p < 65536 := by
    have := hwfp.2.2.2.2.2
    omega
  have hLlen : (pktBytes p).length = pkt_len8 p * 8 := length_pktBytes p hwfp
  have hL16 : 16 ≤ (pktBytes p).length := by
    have := frameLen_ge p
    simp only [frameLen] at this
    omega
  have hofs_mul : pkt_offset8 p * 8 = 16 + p.hdr_extra.length :=
    pkt_offset8_mul p hwfp
  have hlen_mul : pkt_len8 p * 8 = 16 + p.hdr_extra.length + p.payload.length :=
    pkt_len8_mul p hwfp
  have hm_lt : framesLen (p :: q) < d := by
    rw [← havail]
    exact Nat.mod_lt _ hd
  have hflen : frameLen p = (pktBytes p).length + 8 := rfl
  have hmge : frameLen p ≤ framesLen (p :: q) := by
    rw [framesLen_cons]
    omega
  have h16split : ringReadBytes ring_info.ring_buffer.buffer r 16 = descBytes p ∧
      ringReadBytes ring_info.ring_buffer.buffer (r + 16)
        ((pktBytes p).length - 16) = p.hdr_extra ++ p.payload := by
    have h1 : ringReadBytes ring_info.ring_buffer.buffer r (pktBytes p).length
        = ringReadBytes ring_info.ring_buffer.buffer r
            (16 + ((pktBytes p).length - 16)) := by
      congr 1
      omega
    rw [h1, ringReadBytes_add] at hhead
    have h2 : pktBytes p = descBytes p ++ (p.hdr_extra ++ p.payload) := by
      rw [pktBytes, List.append_assoc]
    rw [h2] at hhead
    exact List.append_inj hhead
      (by rw [length_ringReadBytes, length_descBytes])
  have hdesc_eq : hv_copyfrom_ringbuffer ring_info 16 r
      = (descBytes p, (r + 16) % d) := by
    rw [copyfrom_spec ring_info 16 r hb hd hr (by omega), h16split.1]
  have ho8 : bytes_to_u16 (descBytes p) 2 = pkt_offset8 p := decode_offset8 p hwfp
  have hl8 : bytes_to_u16 (descBytes p) 4 = pkt_len8 p := decode_len8 p hwfp
  have htid : bytes_to_u64 (descBytes p) 8 = p.trans_id := decode_trans_id p hwfp
  have havail1 : (hv_get_ringbuffer_availbytes ring_info.ring_buffer d).1
      = framesLen (p :: q) := by
    simp only [hv_get_ringbuffer_availbytes]
    rw [← hww, ← hrr]
    exact havail
  have hhe_pl : ringReadBytes ring_info.ring_buffer.buffer (r + 16)
      (p.hdr_extra.length + p.payload.length) = p.hdr_extra ++ p.payload := by
    have h1 : (pktBytes p).length - 16
        = p.hdr_extra.length + p.payload.length := by omega
    rw [← h1]
    exact h16split.2
  have hpl : ringReadBytes ring_info.ring_buffer.buffer
      (r + (16 + p.hdr_extra.length)) p.payload.length = p.payload := by
    rw [ringReadBytes_add] at hhe_pl
    have h2 := List.append_inj hhe_pl (by rw [length_ringReadBytes])
    rw [← Nat.add_assoc]
    exact h2.2
  -- uniform abbreviations for the two offset policies
  have hplv : (bytes_to_u16 (descBytes p) 4 * 8 + 2 ^ 32
      - (if raw then 0 else bytes_to_u16 (descBytes p) 2 * 8)) % 2 ^ 32
      = (if raw then (pktBytes p).length else p.payload.length) := by
    cases raw <;> simp only [if_true, if_false, ho8, hl8, Bool.false_eq_true,
      ite_true, ite_false] <;> omega
  have hsum_lo : (if raw then 0 else bytes_to_u16 (descBytes p) 2 * 8)
      + (if raw then (pktBytes p).length else p.payload.length)
      = (pktBytes p).length := by
    cases raw <;> simp only [ho8, ite_true, ite_false, Bool.false_eq_true] <;> omega
  have hpayload_val : ringReadBytes ring_info.ring_buffer.buffer
      (r + (if raw then 0 else bytes_to_u16 (descBytes p) 2 * 8))
      (if raw then (pktBytes p).length else p.payload.length)
      = (if raw then pktBytes p else p.payload) := by
    cases raw
    · simp only [Bool.false_eq_true, ite_false, ho8, hofs_mul]
      exact hpl
    · simp only [ite_true]
      rw [Nat.add_zero]
      exact hhead
  have h24 : 24 ≤ frameLen p := frameLen_ge p
  have hLd : (pktBytes p).length < d := by omega
  have hplv_le : (if raw then (pktBytes p).length else p.payload.length) ≤ d := by
    cases raw <;> simp only [ite_true, ite_false, Bool.false_eq_true] <;> omega
  have hpay_eq : hv_copyfrom_ringbuffer ring_info
      (if raw then (pktBytes p).length else p.payload.length)
      ((r + (if raw then 0 else bytes_to_u16 (descBytes p) 2 * 8)) % d)
      = ((if raw then pktBytes p else p.payload),
         ((r + (if raw then 0 else bytes_to_u16 (descBytes p) 2 * 8)) % d
          + (if raw then (pktBytes p).length else p.payload.length)) % d) := by
    rw [copyfrom_spec ring_info _ _ hb hd (Nat.mod_lt _ hd) hplv_le]
    rw [ringReadBytes_mod' _ _ _ _ hb, hpayload_val]
  simp only [hv_ringbuffer_read, hv_get_next_read_location,
    hv_get_next_readlocation_withoffset, vmpacket_descriptor_size, ← hdd, ← hrr]
  rw [if_neg (show ¬ buflen ≤ 0 by omega)]
  rw [havail1]
  rw [if_neg (show ¬ framesLen (p :: q) < 16 by omega)]
  rw [hdesc_eq]
  simp only []
  rw [hplv, htid]
  have hg3 : ((if raw then (pktBytes p).length else p.payload.length)
      + (if raw then 0 else bytes_to_u16 (descBytes p) 2 * 8)) % 2 ^ 32
      = (pktBytes p).length := by omega
  rw [hg3]
  rw [if_neg (show ¬ framesLen (p :: q) < (pktBytes p).length by omega)]
  rw [if_neg (show ¬ (if raw then (pktBytes p).length else p.payload.length)
    > buflen by omega)]
  rw [hpay_eq]
  simp only []
  rw [copyfrom_spec ring_info 8 _ hb hd (Nat.mod_lt _ hd) (by omega)]
  simp only []
  have hback : (((r + (if raw then 0 else bytes_to_u16 (descBytes p) 2 * 8)) % d
      + (if raw then (pktBytes p).length else p.payload.length)) % d + 8) % d
      = (r + frameLen p) % d := by
    rw [mod_chain]
    congr 1
    omega
  rw [hback]
  refine ⟨trivial, trivial, trivial, trivial, ?_⟩
  have hfr := set_read_fields ring_info ((r + frameLen p) % d)
  have hwq : w = (r + framesLen (p :: q)) % d := write_index_eq hw hr havail
  simp only [RingInv, hfr.1, hfr.2.1, hfr.2.2.1, hfr.2.2.2.1, hfr.2.2.2.2.1,
    hfr.2.2.2.2.2, ← hdd, ← hww, ← hrr]
  refine ⟨hb, hd, Nat.mod_lt _ hd, hw, ?_, hwfq', htail⟩
  rw [hwq]
  have hadv := avail_after_advance (r := r) (m := framesLen (p :: q))
    (a := frameLen p) (d := d) hd hr hm_lt hmge
  rw [hadv, framesLen_cons]
  omega

instance (p : AbsPacket) : Decidable (wfPacket p) := by
  unfold wfPacket
  infer_instance

instance (ring_info : hv_ring_buffer_info) (q : List AbsPacket) :
    Decidable (RingInv ring_info q) := by
  unfold RingInv
  infer_instance

/-- C1: FIFO round-trip correctness.  Writes of well-formed packets that
respect the full-margin rule succeed and append the packet to the
abstract queue coupled to the ring by `RingInv`; a read from a non-empty
ring with sufficient capacity succeeds and returns, byte for byte, the
oldest unread packet's bytes (the whole framed packet in raw mode, the
payload otherwise) together with its transaction id, leaving the ring
coupled to the rest of the queue.  Instantiating the invariant at an
empty ring with equal indices (any starting value, including ones that
force wraparound) gives the single write-then-read round trip. -/
theorem hv_ring_fifo_round_trip :
    (∀ ring_info q p kv_list signal0 lock, RingInv ring_info q → wfPacket p →
      List.flatten kv_list = pktBytes p →
      framesLen q + frameLen p < ring_info.ring_datasize →
      (hv_ringbuffer_write ring_info kv_list signal0 lock).ret = 0 ∧
      RingInv (hv_ringbuffer_write ring_info kv_list signal0 lock).ring (q ++ [p]))
    ∧
    (∀ ring_info p q buflen buffer_actual_len0 requestid0 signal0 raw,
      RingInv ring_info (p :: q) →
      (if raw then (pktBytes p).length else p.payload.length) ≤ buflen →
      0 < buflen →
      (hv_ringbuffer_read ring_info buflen buffer_actual_len0 requestid0
          signal0 raw).ret = 0 ∧
      (hv_ringbuffer_read ring_info buflen buffer_actual_len0 requestid0
          signal0 raw).buffer = (if raw then pktBytes p else p.payload) ∧
      (hv_ringbuffer_read ring_info buflen buffer_actual_len0 requestid0
          signal0 raw).buffer_actual_len
        = (if raw then (pktBytes p).length else p.payload.length) ∧
      (hv_ringbuffer_read ring_info buflen buffer_actual_len0 requestid0
          signal0 raw).requestid = p.trans_id ∧
      RingInv (hv_ringbuffer_read ring_info buflen buffer_actual_len0 requestid0
          signal0 raw).ring q) :=
  ⟨fun ring_info q p kv_list signal0 lock hinv hwf hkv hroom =>
      hv_write_append ring_info q p kv_list signal0 lock hinv hwf hkv hroom,
   fun ring_info p q buflen a0 r0 signal0 raw hinv hcap hpos =>
      hv_read_head ring_info p q buflen a0 r0 signal0 raw hinv hcap hpos⟩

/-- An empty 64-byte ring whose indices start at 60, so that the witness
packet wraps around the end of the data region. -/
def ring60 : hv_ring_buffer_info :=
  { ring_buffer :=
      { write_index := 60
        read_index := 60
        interrupt_mask := 0
        pending_send_sz := 0
        feature_bits_value := 1
        buffer := List.replicate 64 0 }
    ring_size := 4160
    ring_datasize := 64 }

/-- Concrete witness packet: 8 payload bytes, transaction id 7. -/
def pkt7 : AbsPacket :=
  { ptype := 1
    flags := 0
    trans_id := 7
    hdr_extra := []
    payload := [1, 2, 3, 4, 5, 6, 7, 8] }

/-- Witness for C1: on the empty ring seeded at index 60 the write of
`pkt7` (descriptor and payload as two segments) succeeds across the wrap
point, and the subsequent read returns its 8 payload bytes and
transaction id 7. -/
theorem hv_ring_fifo_round_trip_witness :
    RingInv ring60 [] ∧ wfPacket pkt7 ∧
    List.flatten [descBytes pkt7, pkt7.payload] = pktBytes pkt7 ∧
    framesLen [] + frameLen pkt7 < ring60.ring_datasize ∧
    ((hv_ringbuffer_write ring60 [descBytes pkt7, pkt7.payload] false true).ret
        = 0 ∧
     RingInv (hv_ringbuffer_write ring60 [descBytes pkt7, pkt7.payload]
        false true).ring [pkt7]) ∧
    ((hv_ringbuffer_read (hv_ringbuffer_write ring60
        [descBytes pkt7, pkt7.payload] false true).ring 8 0 0 false false).ret
        = 0 ∧
     (hv_ringbuffer_read (hv_ringbuffer_write ring60
        [descBytes pkt7, pkt7.payload] false true).ring 8 0 0 false
        false).buffer = [1, 2, 3, 4, 5, 6, 7, 8] ∧
     (hv_ringbuffer_read (hv_ringbuffer_write ring60
        [descBytes pkt7, pkt7.payload] false true).ring 8 0 0 false
        false).buffer_actual_len = 8 ∧
     (hv_ringbuffer_read (hv_ringbuffer_write ring60
        [descBytes pkt7, pkt7.payload] false true).ring 8 0 0 false
        false).requestid = 7 ∧
     RingInv (hv_ringbuffer_read (hv_ringbuffer_write ring60
        [descBytes pkt7, pkt7.payload] false true).ring 8 0 0 false
        false).ring []) := by
  refine ⟨by decide, by decide, by decide, by decide,
    hv_ring_fifo_round_trip.1 ring60 [] pkt7 [descBytes pkt7, pkt7.payload]
      false true (by decide) (by decide) (by decide) (by decide), ?_⟩
  exact hv_ring_fifo_round_trip.2
    (hv_ringbuffer_write ring60 [descBytes pkt7, pkt7.payload] false true).ring
    pkt7 [] 8 0 0 false false (by decide) (by decide) (by decide)

/-- A 32-byte ring with both indices at zero, used as a concrete state
for several witnesses. -/
def ringC2 : hv_ring_buffer_info :=
  { ring_buffer :=
      { write_index := 0
        read_index := 0
        interrupt_mask := 0
        pending_send_sz := 0
        feature_bits_value := 1
        buffer := List.replicate 32 0 }
    ring_size := 4128
    ring_datasize := 32 }

/-- C2 (amended): provided the total framed size `L + 8` does not
overflow the 32-bit accumulation, the write fails with the retryable
ring-full code `-EAGAIN` exactly when available-to-write is at most
`L + 8`; on failure the ring state and the `*signal` out-parameter are
untouched, and with even one byte more available the write succeeds. -/
theorem hv_write_full_margin (ring_info : hv_ring_buffer_info)
    (kv_list : List (List Nat)) (signal0 lock : Bool)
    (hno : (kv_list.map List.length).sum + 8 < 2 ^ 32) :
    ((hv_ringbuffer_write ring_info kv_list signal0 lock).ret = -11 ↔
      (hv_get_ringbuffer_availbytes ring_info.ring_buffer
        ring_info.ring_datasize).2 ≤ (kv_list.map List.length).sum + 8) ∧
    ((hv_get_ringbuffer_availbytes ring_info.ring_buffer
        ring_info.ring_datasize).2 ≤ (kv_list.map List.length).sum + 8 →
      (hv_ringbuffer_write ring_info kv_list signal0 lock).ring = ring_info ∧
      (hv_ringbuffer_write ring_info kv_list signal0 lock).signal = signal0) ∧
    ((kv_list.map List.length).sum + 8
        < (hv_get_ringbuffer_availbytes ring_info.ring_buffer
            ring_info.ring_datasize).2 →
      (hv_ringbuffer_write ring_info kv_list signal0 lock).ret = 0) := by
  have htot : (kv_list.foldl (fun acc kv => (acc + kv.length) % 2 ^ 32) 0 + 8)
      % 2 ^ 32 = (kv_list.map List.length).sum + 8 := by
    rw [fold_mod_sum kv_list 0 (by omega)]
    omega
  by_cases hc : (hv_get_ringbuffer_availbytes ring_info.ring_buffer
      ring_info.ring_datasize).2 ≤ (kv_list.map List.length).sum + 8
  · have hred : hv_ringbuffer_write ring_info kv_list signal0 lock =
        { ret := -11, signal := signal0, ring := ring_info } := by
      simp only [hv_ringbuffer_write]
      rw [htot, if_pos hc]
    rw [hred]
    exact ⟨⟨fun _ => hc, fun _ => rfl⟩, fun _ => ⟨rfl, rfl⟩, fun h => absurd hc (by omega)⟩
  · have hred : (hv_ringbuffer_write ring_info kv_list signal0 lock).ret = 0 := by
      simp only [hv_ringbuffer_write]
      rw [htot, if_neg hc]
    refine ⟨⟨fun h => by rw [hred] at h; exact absurd h (by decide), fun h => absurd h hc⟩,
      fun h => absurd h hc, fun _ => hred⟩

/-- Witness for C2's amended theorem: on the 32-byte empty ring a
4-byte segment (framed size 12) is below the margin and the write
succeeds; the full-margin iff holds at this input. -/
theorem hv_write_full_margin_witness :
    (([[1, 2, 3, 4]] : List (List Nat)).map List.length).sum + 8 < 2 ^ 32 ∧
    ((hv_ringbuffer_write ringC2 [[1, 2, 3, 4]] false false).ret = -11 ↔
      (hv_get_ringbuffer_availbytes ringC2.ring_buffer
        ringC2.ring_datasize).2
        ≤ (([[1, 2, 3, 4]] : List (List Nat)).map List.length).sum + 8) ∧
    ((([[1, 2, 3, 4]] : List (List Nat)).map List.length).sum + 8
        < (hv_get_ringbuffer_availbytes ringC2.ring_buffer
            ringC2.ring_datasize).2 →
      (hv_ringbuffer_write ringC2 [[1, 2, 3, 4]] false false).ret = 0) := by
  have h := hv_write_full_margin ringC2 [[1, 2, 3, 4]] false false (by decide)
  exact ⟨by decide, h.1, h.2.2⟩

theorem hv_write_ret_of_not_full (ring_info : hv_ring_buffer_info)
    (kv_list : List (List Nat)) (signal0 lock : Bool)
    (h : ¬ ((hv_get_ringbuffer_availbytes ring_info.ring_buffer
        ring_info.ring_datasize).2
        ≤ (kv_list.foldl (fun acc kv => (acc + kv.length) % 2 ^ 32) 0 + 8)
            % 2 ^ 32)) :
    (hv_ringbuffer_write ring_info kv_list signal0 lock).ret = 0 := by
  simp only [hv_ringbuffer_write]
  rw [if_neg h]

/-- Counterexample for C2 as stated: with a segment of `2 ^ 32 - 8`
bytes the u32 accumulation of `totalbytes_towrite` wraps to zero, so the
write proceeds (returns 0) even though available-to-write (32 bytes) is
far below the framed size `L + 8 = 2 ^ 32`. -/
theorem hv_write_full_margin_counterexample :
    (hv_get_ringbuffer_availbytes ringC2.ring_buffer ringC2.ring_datasize).2
      ≤ (([List.replicate (2 ^ 32 - 8) 0] : List (List Nat)).map
          List.length).sum + 8 ∧
    (hv_ringbuffer_write ringC2 [List.replicate (2 ^ 32 - 8) 0]
        false false).ret = 0 := by
  have havr : (hv_get_ringbuffer_availbytes ringC2.ring_buffer
      ringC2.ring_datasize).2 = 32 := by
    norm_num [ringC2, hv_get_ringbuffer_availbytes]
  constructor
  · rw [havr, List.map_cons, List.map_nil, List.sum_cons, List.sum_nil,
      List.length_replicate]
    norm_num
  · refine hv_write_ret_of_not_full ringC2 _ false false ?_
    rw [havr, List.foldl_cons, List.foldl_nil]
    show ¬ (32 ≤ ((0 + (List.replicate (2 ^ 32 - 8) (0 : Nat)).length)
      % 2 ^ 32 + 8) % 2 ^ 32)
    rw [List.length_replicate]
    norm_num

/-- C3: the `needs_signal` value of a successful write is true exactly
when the interrupt mask is clear and the pre-write write index
(`old_write`) equals the read index (which the write path never
modifies, so the value the predicate reads is the caller's read index). -/
theorem hv_write_signal_iff (ring_info : hv_ring_buffer_info)
    (kv_list : List (List Nat)) (signal0 lock : Bool) :
    (hv_ringbuffer_write ring_info kv_list signal0 lock).ret = 0 →
    ((hv_ringbuffer_write ring_info kv_list signal0 lock).signal = true ↔
      (ring_info.ring_buffer.interrupt_mask = 0 ∧
       ring_info.ring_buffer.write_index = ring_info.ring_buffer.read_index)) := by
  intro hret
  by_cases hc : (hv_get_ringbuffer_availbytes ring_info.ring_buffer
      ring_info.ring_datasize).2
      ≤ (kv_list.foldl (fun acc kv => (acc + kv.length) % 2 ^ 32) 0 + 8) % 2 ^ 32
  · have hfail : (hv_ringbuffer_write ring_info kv_list signal0 lock).ret = -11 := by
      simp only [hv_ringbuffer_write]
      rw [if_pos hc]
    rw [hfail] at hret
    exact absurd hret (by decide)
  · set step := kv_list.foldl
      (fun (st : hv_ring_buffer_info × Nat) kv => hv_copyto_ringbuffer st.1 st.2 kv)
      (ring_info, ring_info.ring_buffer.write_index) with hstep
    set step2 := hv_copyto_ringbuffer step.1 step.2
      (u64_bytes (hv_get_ring_bufferindices step.1)) with hstep2
    have hred : hv_ringbuffer_write ring_info kv_list signal0 lock =
        { ret := 0
          signal := hv_need_to_signal ring_info.ring_buffer.write_index
            (hv_set_next_write_location step2.1 step2.2)
          ring := hv_set_next_write_location step2.1 step2.2 } := by
      rw [hstep2, hstep]
      simp only [hv_ringbuffer_write, hv_get_next_write_location]
      rw [if_neg hc]
    rw [hred]
    have hff := fold_copyto_fields kv_list (ring_info, ring_info.ring_buffer.write_index)
    rw [← hstep] at hff
    have hfields2 := copyto_fields step.1 step.2
      (u64_bytes (hv_get_ring_bufferindices step.1))
    rw [← hstep2] at hfields2
    have hfr := set_write_fields step2.1 step2.2
    have hmask : (hv_set_next_write_location step2.1 step2.2).ring_buffer.interrupt_mask
        = ring_info.ring_buffer.interrupt_mask := by
      rw [hfr.2.2.1, hfields2.2.2.1, hff.2.2.1]
    have hreadf : (hv_set_next_read_location step2.1 step2.2).ring_buffer.read_index
        = step2.2 := rfl
    have hread : (hv_set_next_write_location step2.1 step2.2).ring_buffer.read_index
        = ring_info.ring_buffer.read_index := by
      rw [hfr.2.1, hfields2.2.1, hff.2.1]
    simp only [hv_need_to_signal, hmask, hread]
    by_cases h1 : ring_info.ring_buffer.interrupt_mask = 0 <;>
      by_cases h2 : ring_info.ring_buffer.write_index
        = ring_info.ring_buffer.read_index <;>
      simp [h1, h2]

/-- Witness for C3: a successful write into the empty, unmasked 32-byte
ring reports `needs_signal` in accordance with the mask and
index-equality conditions (here: true). -/
theorem hv_write_signal_iff_witness :
    (hv_ringbuffer_write ringC2 [[1, 2, 3, 4]] false false).ret = 0 ∧
    ((hv_ringbuffer_write ringC2 [[1, 2, 3, 4]] false false).signal = true ↔
      (ringC2.ring_buffer.interrupt_mask = 0 ∧
       ringC2.ring_buffer.write_index = ringC2.ring_buffer.read_index)) :=
  ⟨by decide, hv_write_signal_iff ringC2 [[1, 2, 3, 4]] false false (by decide)⟩

/-! Branch-by-branch reductions of the read path, phrased with the
`read_descriptor`/`read_offset`/`read_packetlen`/`read_trans_id`
observers (which are definitionally the sub-expressions the read path
computes). -/

theorem hv_read_reduce_einval (ring_info : hv_ring_buffer_info)
    (buflen buffer_actual_len0 requestid0 : Nat) (signal0 raw : Bool)
    (h : buflen ≤ 0) :
    hv_ringbuffer_read ring_info buflen buffer_actual_len0 requestid0 signal0 raw
      = { ret := -22
          buffer := []
          buffer_actual_len := buffer_actual_len0
          requestid := requestid0
          signal := signal0
          ring := ring_info } := by
  simp only [hv_ringbuffer_read]
  rw [if_pos h]

theorem hv_read_reduce_empty (ring_info : hv_ring_buffer_info)
    (buflen buffer_actual_len0 requestid0 : Nat) (signal0 raw : Bool)
    (hpos : 0 < buflen)
    (h : (hv_get_ringbuffer_availbytes ring_info.ring_buffer
        ring_info.ring_datasize).1 < vmpacket_descriptor_size) :
    hv_ringbuffer_read ring_info buflen buffer_actual_len0 requestid0 signal0 raw
      = { ret := 0
          buffer := []
          buffer_actual_len := 0
          requestid := 0
          signal := signal0
          ring := ring_info } := by
  simp only [hv_ringbuffer_read]
  rw [if_neg (by omega), if_pos h]

theorem hv_read_reduce_eagain (ring_info : hv_ring_buffer_info)
    (buflen buffer_actual_len0 requestid0 : Nat) (signal0 raw : Bool)
    (hpos : 0 < buflen)
    (h16 : ¬ ((hv_get_ringbuffer_availbytes ring_info.ring_buffer
        ring_info.ring_datasize).1 < vmpacket_descriptor_size))
    (h : (hv_get_ringbuffer_availbytes ring_info.ring_buffer
        ring_info.ring_datasize).1
      < (read_packetlen ring_info raw + read_offset ring_info raw) % 2 ^ 32) :
    hv_ringbuffer_read ring_info buflen buffer_actual_len0 requestid0 signal0 raw
      = { ret := -11
          buffer := []
          buffer_actual_len := read_packetlen ring_info raw
          requestid := read_trans_id ring_info
          signal := signal0
          ring := ring_info } := by
  simp only [read_packetlen, read_offset, read_descriptor, read_trans_id] at h ⊢
  simp only [hv_ringbuffer_read]
  rw [if_neg (by omega), if_neg h16, if_pos h]

theorem hv_read_reduce_enobufs (ring_info : hv_ring_buffer_info)
    (buflen buffer_actual_len0 requestid0 : Nat) (signal0 raw : Bool)
    (hpos : 0 < buflen)
    (h16 : ¬ ((hv_get_ringbuffer_availbytes ring_info.ring_buffer
        ring_info.ring_datasize).1 < vmpacket_descriptor_size))
    (hfull : ¬ ((hv_get_ringbuffer_availbytes ring_info.ring_buffer
        ring_info.ring_datasize).1
      < (read_packetlen ring_info raw + read_offset ring_info raw) % 2 ^ 32))
    (h : read_packetlen ring_info raw > buflen) :
    hv_ringbuffer_read ring_info buflen buffer_actual_len0 requestid0 signal0 raw
      = { ret := -105
          buffer := []
          buffer_actual_len := read_packetlen ring_info raw
          requestid := read_trans_id ring_info
          signal := signal0
          ring := ring_info } := by
  simp only [read_packetlen, read_offset, read_descriptor, read_trans_id]
    at hfull h ⊢
  simp only [hv_ringbuffer_read]
  rw [if_neg (by omega), if_neg h16, if_neg hfull, if_pos h]

theorem hv_read_reduce_success (ring_info : hv_ring_buffer_info)
    (buflen buffer_actual_len0 requestid0 : Nat) (signal0 raw : Bool)
    (hpos : 0 < buflen)
    (h16 : ¬ ((hv_get_ringbuffer_availbytes ring_info.ring_buffer
        ring_info.ring_datasize).1 < vmpacket_descriptor_size))
    (hfull : ¬ ((hv_get_ringbuffer_availbytes ring_info.ring_buffer
        ring_info.ring_datasize).1
      < (read_packetlen ring_info raw + read_offset ring_info raw) % 2 ^ 32))
    (hcap : ¬ (read_packetlen ring_info raw > buflen)) :
    hv_ringbuffer_read ring_info buflen buffer_actual_len0 requestid0 signal0 raw
      = { ret := 0
          buffer := (hv_copyfrom_ringbuffer ring_info
            (read_packetlen ring_info raw)
            (hv_get_next_readlocation_withoffset ring_info
              (read_offset ring_info raw))).1
          buffer_actual_len := read_packetlen ring_info raw
          requestid := read_trans_id ring_info
          signal := hv_need_to_signal_on_read
            (hv_get_ringbuffer_availbytes ring_info.ring_buffer
              ring_info.ring_datasize).2
            (hv_set_next_read_location ring_info
              (hv_copyfrom_ringbuffer ring_info 8
                (hv_copyfrom_ringbuffer ring_info
                  (read_packetlen ring_info raw)
                  (hv_get_next_readlocation_withoffset ring_info
                    (read_offset ring_info raw))).2).2)
          ring := hv_set_next_read_location ring_info
            (hv_copyfrom_ringbuffer ring_info 8
              (hv_copyfrom_ringbuffer ring_info
                (read_packetlen ring_info raw)
                (hv_get_next_readlocation_withoffset ring_info
                  (read_offset ring_info raw))).2).2 } := by
  simp only [read_packetlen, read_offset, read_descriptor, read_trans_id]
    at hfull hcap ⊢
  simp only [hv_ringbuffer_read]
  rw [if_neg (by omega), if_neg h16, if_neg hfull, if_neg hcap]

theorem cur_write_sz_eq (w r d : Nat) (hw : w < d) (hr : r < d) :
    (if w ≥ r then d - (w - r) else r - w) = d - (w + d - r) % d := by
  rw [mod_two_region (by omega) (by omega)]
  split <;> split <;> omega

/-- C4: the `needs_signal` value of a read that consumed a packet is
false whenever `pending_send_sz` is zero; otherwise it is true exactly
when the pre-read available-to-write was strictly below
`pending_send_sz` and the post-read available-to-write (data size minus
the modular distance from the updated read index to the write index) is
at or above it — the edge-triggered threshold crossing. -/
theorem hv_read_signal_flow (ring_info : hv_ring_buffer_info)
    (buflen buffer_actual_len0 requestid0 : Nat) (signal0 raw : Bool)
    (hw : ring_info.ring_buffer.write_index < ring_info.ring_datasize)
    (hr : ring_info.ring_buffer.read_index < ring_info.ring_datasize)
    (hdesc : vmpacket_descriptor_size ≤ (hv_get_ringbuffer_availbytes
      ring_info.ring_buffer ring_info.ring_datasize).1)
    (hret : (hv_ringbuffer_read ring_info buflen buffer_actual_len0 requestid0
      signal0 raw).ret = 0) :
    (ring_info.ring_buffer.pending_send_sz = 0 →
      (hv_ringbuffer_read ring_info buflen buffer_actual_len0 requestid0
        signal0 raw).signal = false) ∧
    (0 < ring_info.ring_buffer.pending_send_sz →
      ((hv_ringbuffer_read ring_info buflen buffer_actual_len0 requestid0
          signal0 raw).signal = true ↔
        ((hv_get_ringbuffer_availbytes ring_info.ring_buffer
            ring_info.ring_datasize).2 < ring_info.ring_buffer.pending_send_sz ∧
         ring_info.ring_buffer.pending_send_sz ≤
           (hv_get_ringbuffer_availbytes
             (hv_ringbuffer_read ring_info buflen buffer_actual_len0 requestid0
               signal0 raw).ring.ring_buffer
             (hv_ringbuffer_read ring_info buflen buffer_actual_len0 requestid0
               signal0 raw).ring.ring_datasize).2))) := by
  by_cases h0 : buflen ≤ 0
  · rw [hv_read_reduce_einval ring_info buflen buffer_actual_len0 requestid0
      signal0 raw h0] at hret
    simp at hret
  have hpos : 0 < buflen := by omega
  have h16 : ¬ ((hv_get_ringbuffer_availbytes ring_info.ring_buffer
      ring_info.ring_datasize).1 < vmpacket_descriptor_size) := by omega
  by_cases hfull : (hv_get_ringbuffer_availbytes ring_info.ring_buffer
      ring_info.ring_datasize).1
      < (read_packetlen ring_info raw + read_offset ring_info raw) % 2 ^ 32
  · rw [hv_read_reduce_eagain ring_info buflen buffer_actual_len0 requestid0
      signal0 raw hpos h16 hfull] at hret
    simp at hret
  by_cases hcap : read_packetlen ring_info raw > buflen
  · rw [hv_read_reduce_enobufs ring_info buflen buffer_actual_len0 requestid0
      signal0 raw hpos h16 hfull hcap] at hret
    simp at hret
  rw [hv_read_reduce_success ring_info buflen buffer_actual_len0 requestid0
    signal0 raw hpos h16 hfull hcap]
  set nrl := (hv_copyfrom_ringbuffer ring_info 8
    (hv_copyfrom_ringbuffer ring_info (read_packetlen ring_info raw)
      (hv_get_next_readlocation_withoffset ring_info
        (read_offset ring_info raw))).2).2 with hnrl
  have hd : 0 < ring_info.ring_datasize := by omega
  have hnrl_lt : nrl < ring_info.ring_datasize := by
    rw [hnrl, copyfrom_snd]
    exact Nat.mod_lt _ hd
  have hfr := set_read_fields ring_info nrl
  refine ⟨fun hp0 => ?_, fun hppos => ?_⟩
  · show hv_need_to_signal_on_read
        (hv_get_ringbuffer_availbytes ring_info.ring_buffer
          ring_info.ring_datasize).2
        (hv_set_next_read_location ring_info nrl) = false
    simp only [hv_need_to_signal_on_read, hfr.2.2.2.1]
    rw [if_pos hp0]
  · show hv_need_to_signal_on_read
        (hv_get_ringbuffer_availbytes ring_info.ring_buffer
          ring_info.ring_datasize).2
        (hv_set_next_read_location ring_info nrl) = true ↔
      ((hv_get_ringbuffer_availbytes ring_info.ring_buffer
          ring_info.ring_datasize).2 < ring_info.ring_buffer.pending_send_sz ∧
        ring_info.ring_buffer.pending_send_sz ≤
          (hv_get_ringbuffer_availbytes
            (hv_set_next_read_location ring_info nrl).ring_buffer
            (hv_set_next_read_location ring_info nrl).ring_datasize).2)
    simp only [hv_need_to_signal_on_read, hv_get_ringbuffer_availbytes,
      hfr.1, hfr.2.1, hfr.2.2.2.1, hfr.2.2.2.2.2]
    rw [if_neg (by omega)]
    rw [cur_write_sz_eq ring_info.ring_buffer.write_index nrl
      ring_info.ring_datasize hw hnrl_lt]
    simp [decide_eq_true_eq, ge_iff_le]

/-- A 64-byte ring holding one complete 32-byte frame (the image of
`pkt7` plus its back-link word) with `pending_send_sz = 40`: before the
read only 32 bytes are free (below the threshold), after it 64 are (at
or above it). -/
def ringC4 : hv_ring_buffer_info :=
  { ring_buffer :=
      { write_index := 32
        read_index := 0
        interrupt_mask := 0
        pending_send_sz := 40
        feature_bits_value := 1
        buffer := pktBytes pkt7 ++ u64_bytes 0 ++ List.replicate 32 0 }
    ring_size := 4160
    ring_datasize := 64 }

/-- Witness for C4: reading the only packet of `ringC4` crosses the
40-byte flow-control threshold, and the returned `needs_signal` obeys
the edge-triggered equivalence (here: fires). -/
theorem hv_read_signal_flow_witness :
    ringC4.ring_buffer.write_index < ringC4.ring_datasize ∧
    ringC4.ring_buffer.read_index < ringC4.ring_datasize ∧
    vmpacket_descriptor_size ≤ (hv_get_ringbuffer_availbytes
      ringC4.ring_buffer ringC4.ring_datasize).1 ∧
    (hv_ringbuffer_read ringC4 8 0 0 false false).ret = 0 ∧
    0 < ringC4.ring_buffer.pending_send_sz ∧
    ((hv_ringbuffer_read ringC4 8 0 0 false false).signal = true ↔
      ((hv_get_ringbuffer_availbytes ringC4.ring_buffer
          ringC4.ring_datasize).2 < ringC4.ring_buffer.pending_send_sz ∧
        ringC4.ring_buffer.pending_send_sz ≤
          (hv_get_ringbuffer_availbytes
            (hv_ringbuffer_read ringC4 8 0 0 false false).ring.ring_buffer
            (hv_ringbuffer_read ringC4 8 0 0 false false).ring.ring_datasize).2)) :=
  ⟨by decide, by decide, by decide, by decide, by decide,
   (hv_read_signal_flow ringC4 8 0 0 false false (by decide) (by decide)
     (by decide) (by decide)).2 (by decide)⟩

/-- C5: if a complete packet is present but its decoded payload length
exceeds the destination capacity, the read fails with `-ENOBUFS` and the
whole ring state — in particular the read index — is left unchanged, so
the packet can be re-read with a larger buffer. -/
theorem hv_read_buffer_too_small (ring_info : hv_ring_buffer_info)
    (buflen buffer_actual_len0 requestid0 : Nat) (signal0 raw : Bool)
    (hpos : 0 < buflen)
    (hdesc : vmpacket_descriptor_size ≤ (hv_get_ringbuffer_availbytes
      ring_info.ring_buffer ring_info.ring_datasize).1)
    (hcomplete : (read_packetlen ring_info raw + read_offset ring_info raw)
        % 2 ^ 32
      ≤ (hv_get_ringbuffer_availbytes ring_info.ring_buffer
          ring_info.ring_datasize).1)
    (htoobig : buflen < read_packetlen ring_info raw) :
    (hv_ringbuffer_read ring_info buflen buffer_actual_len0 requestid0
        signal0 raw).ret = -105 ∧
    (hv_ringbuffer_read ring_info buflen buffer_actual_len0 requestid0
        signal0 raw).ring = ring_info ∧
    (hv_ringbuffer_read ring_info buflen buffer_actual_len0 requestid0
        signal0 raw).ring.ring_buffer.read_index
      = ring_info.ring_buffer.read_index := by
  rw [hv_read_reduce_enobufs ring_info buflen buffer_actual_len0 requestid0
    signal0 raw hpos (by omega) (by omega) (by omega)]
  exact ⟨rfl, rfl, rfl⟩

/-- Witness for C5: `ringC4` holds an 8-byte-payload packet; a read with
capacity 4 fails with `-ENOBUFS` and leaves the state untouched. -/
theorem hv_read_buffer_too_small_witness :
    0 < 4 ∧
    vmpacket_descriptor_size ≤ (hv_get_ringbuffer_availbytes
      ringC4.ring_buffer ringC4.ring_datasize).1 ∧
    (read_packetlen ringC4 false + read_offset ringC4 false) % 2 ^ 32
      ≤ (hv_get_ringbuffer_availbytes ringC4.ring_buffer
          ringC4.ring_datasize).1 ∧
    4 < read_packetlen ringC4 false ∧
    ((hv_ringbuffer_read ringC4 4 0 0 false false).ret = -105 ∧
     (hv_ringbuffer_read ringC4 4 0 0 false false).ring = ringC4 ∧
     (hv_ringbuffer_read ringC4 4 0 0 false false).ring.ring_buffer.read_index
       = ringC4.ring_buffer.read_index) :=
  ⟨by decide, by decide, by decide, by decide,
   hv_read_buffer_too_small ringC4 4 0 0 false false (by decide) (by decide)
     (by decide) (by decide)⟩

/-- C6 (amended): initialization fails with `-EINVAL` exactly when the
fixed header-struct size differs from the platform page size — the
supplied length is never validated — and on success zeroes the indices,
sets the flow-control feature bit, and caches
`data_size = length - header size`. -/
theorem hv_init_contract (buffer : hv_ring_buffer)
    (buflen hv_ring_buffer_struct_size page_size : Nat) :
    (hv_ring_buffer_struct_size ≠ page_size →
      hv_ringbuffer_init buffer buflen hv_ring_buffer_struct_size page_size
        = Except.error (-22)) ∧
    (hv_ring_buffer_struct_size = page_size →
      hv_ringbuffer_init buffer buflen hv_ring_buffer_struct_size page_size
        = Except.ok
          { ring_buffer :=
              { buffer with
                read_index := 0
                write_index := 0
                feature_bits_value := 1 }
            ring_size := buflen
            ring_datasize := buflen - hv_ring_buffer_struct_size }) := by
  constructor <;> intro h <;> simp [hv_ringbuffer_init, h]

/-- A shared page with stale contents, to show what initialization does
and does not reset. -/
def bufC6 : hv_ring_buffer :=
  { write_index := 7
    read_index := 5
    interrupt_mask := 1
    pending_send_sz := 2
    feature_bits_value := 0
    buffer := [9, 9] }

/-- Witness for C6's amended theorem: with matching header and page
sizes, initialization succeeds for a multi-page length, zeroing only the
indices and setting the feature bit. -/
theorem hv_init_contract_witness :
    (4096 : Nat) = 4096 ∧
    hv_ringbuffer_init bufC6 8192 4096 4096
      = Except.ok
        { ring_buffer :=
            { write_index := 0
              read_index := 0
              interrupt_mask := 1
              pending_send_sz := 2
              feature_bits_value := 1
              buffer := [9, 9] }
          ring_size := 8192
          ring_datasize := 4096 } :=
  ⟨rfl, (hv_init_contract bufC6 8192 4096 4096).2 rfl⟩

/-- Counterexample for C6 as stated: the supplied length 8192 differs
from the required fixed size (the platform page, 4096), yet
initialization succeeds — the length is never checked. -/
theorem hv_init_contract_counterexample :
    (8192 : Nat) ≠ 4096 ∧
    hv_ringbuffer_init bufC6 8192 4096 4096 ≠ Except.error (-22) ∧
    hv_ringbuffer_init bufC6 8192 4096 4096
      = Except.ok
        { ring_buffer :=
            { write_index := 0
              read_index := 0
              interrupt_mask := 1
              pending_send_sz := 2
              feature_bits_value := 1
              buffer := [9, 9] }
          ring_size := 8192
          ring_datasize := 4096 } := by
  have hok : hv_ringbuffer_init bufC6 8192 4096 4096
      = Except.ok
        { ring_buffer :=
            { write_index := 0
              read_index := 0
              interrupt_mask := 1
              pending_send_sz := 2
              feature_bits_value := 1
              buffer := [9, 9] }
          ring_size := 8192
          ring_datasize := 4096 } := by
    simp [hv_ringbuffer_init, bufC6]
  refine ⟨by decide, ?_, hok⟩
  rw [hok]
  simp

/-- C8: when fewer bytes than a packet descriptor are available, the
read returns success (0) with zero length and id and leaves the whole
ring state unchanged. -/
theorem hv_read_empty_success (ring_info : hv_ring_buffer_info)
    (buflen buffer_actual_len0 requestid0 : Nat) (signal0 raw : Bool)
    (hpos : 0 < buflen)
    (hempty : (hv_get_ringbuffer_availbytes ring_info.ring_buffer
      ring_info.ring_datasize).1 < vmpacket_descriptor_size) :
    (hv_ringbuffer_read ring_info buflen buffer_actual_len0 requestid0
        signal0 raw).ret = 0 ∧
    (hv_ringbuffer_read ring_info buflen buffer_actual_len0 requestid0
        signal0 raw).buffer_actual_len = 0 ∧
    (hv_ringbuffer_read ring_info buflen buffer_actual_len0 requestid0
        signal0 raw).requestid = 0 ∧
    (hv_ringbuffer_read ring_info buflen buffer_actual_len0 requestid0
        signal0 raw).ring = ring_info := by
  rw [hv_read_reduce_empty ring_info buflen buffer_actual_len0 requestid0
    signal0 raw hpos hempty]
  exact ⟨rfl, rfl, rfl, rfl⟩

/-- Witness for C8: a read from the empty 32-byte ring returns success
with zero length and no state change, whatever the out-parameters held. -/
theorem hv_read_empty_success_witness :
    0 < 8 ∧
    (hv_get_ringbuffer_availbytes ringC2.ring_buffer
      ringC2.ring_datasize).1 < vmpacket_descriptor_size ∧
    ((hv_ringbuffer_read ringC2 8 5 6 true false).ret = 0 ∧
     (hv_ringbuffer_read ringC2 8 5 6 true false).buffer_actual_len = 0 ∧
     (hv_ringbuffer_read ringC2 8 5 6 true false).requestid = 0 ∧
     (hv_ringbuffer_read ringC2 8 5 6 true false).ring = ringC2) :=
  ⟨by decide, by decide,
   hv_read_empty_success ringC2 8 5 6 true false (by decide) (by decide)⟩

/-- C9 (amended): after the destination-capacity check passes, the read
path zeroes both out-parameters, and once a full descriptor is available
it stores the decoded packet length and transaction id into them before
the not-fully-written and buffer-too-small checks, so they carry the
decoded values on those failure paths as well as on success. -/
theorem hv_read_outparams (ring_info : hv_ring_buffer_info)
    (buflen buffer_actual_len0 requestid0 : Nat) (signal0 raw : Bool)
    (hpos : 0 < buflen) :
    ((hv_get_ringbuffer_availbytes ring_info.ring_buffer
        ring_info.ring_datasize).1 < vmpacket_descriptor_size →
      (hv_ringbuffer_read ring_info buflen buffer_actual_len0 requestid0
          signal0 raw).buffer_actual_len = 0 ∧
      (hv_ringbuffer_read ring_info buflen buffer_actual_len0 requestid0
          signal0 raw).requestid = 0) ∧
    (vmpacket_descriptor_size ≤ (hv_get_ringbuffer_availbytes
        ring_info.ring_buffer ring_info.ring_datasize).1 →
      (hv_ringbuffer_read ring_info buflen buffer_actual_len0 requestid0
          signal0 raw).buffer_actual_len = read_packetlen ring_info raw ∧
      (hv_ringbuffer_read ring_info buflen buffer_actual_len0 requestid0
          signal0 raw).requestid = read_trans_id ring_info) := by
  constructor
  · intro h
    rw [hv_read_reduce_empty ring_info buflen buffer_actual_len0 requestid0
      signal0 raw hpos h]
    exact ⟨rfl, rfl⟩
  · intro h
    by_cases hfull : (hv_get_ringbuffer_availbytes ring_info.ring_buffer
        ring_info.ring_datasize).1
        < (read_packetlen ring_info raw + read_offset ring_info raw) % 2 ^ 32
    · rw [hv_read_reduce_eagain ring_info buflen buffer_actual_len0 requestid0
        signal0 raw hpos (by omega) hfull]
      exact ⟨rfl, rfl⟩
    · by_cases hcap : read_packetlen ring_info raw > buflen
      · rw [hv_read_reduce_enobufs ring_info buflen buffer_actual_len0
          requestid0 signal0 raw hpos (by omega) hfull hcap]
        exact ⟨rfl, rfl⟩
      · rw [hv_read_reduce_success ring_info buflen buffer_actual_len0
          requestid0 signal0 raw hpos (by omega) hfull hcap]
        exact ⟨rfl, rfl⟩

/-- Witness for C9's amended theorem: on `ringC4` with a 4-byte
destination the read fails with buffer-too-small, yet the
out-parameters carry the decoded length (8) and id (7). -/
theorem hv_read_outparams_witness :
    0 < 4 ∧
    vmpacket_descriptor_size ≤ (hv_get_ringbuffer_availbytes
      ringC4.ring_buffer ringC4.ring_datasize).1 ∧
    ((hv_ringbuffer_read ringC4 4 1 2 false false).buffer_actual_len
        = read_packetlen ringC4 false ∧
     (hv_ringbuffer_read ringC4 4 1 2 false false).requestid
        = read_trans_id ringC4) ∧
    read_packetlen ringC4 false = 8 ∧ read_trans_id ringC4 = 7 ∧
    (hv_ringbuffer_read ringC4 4 1 2 false false).ret = -105 :=
  ⟨by decide, by decide,
   (hv_read_outparams ringC4 4 1 2 false false (by decide)).2 (by decide),
   by decide, by decide, by decide⟩

/-- Counterexample for C9 as stated: when the capacity check rejects the
call (`buflen = 0`, `-EINVAL`) the out-parameters are returned exactly
as they came in — they are not zeroed "at entry". -/
theorem hv_read_outparams_counterexample :
    (hv_ringbuffer_read ringC2 0 5 6 false false).buffer_actual_len = 5 ∧
    (hv_ringbuffer_read ringC2 0 5 6 false false).requestid = 6 ∧
    (hv_ringbuffer_read ringC2 0 5 6 false false).buffer_actual_len ≠ 0 ∧
    (hv_ringbuffer_read ringC2 0 5 6 false false).ret = -22 := by
  refine ⟨by decide, by decide, by decide, by decide⟩

/-- C10: the diagnostics snapshot writes all five output fields when the
control-block pointer is non-null and returns the output structure
untouched when it is null. -/
theorem hv_get_debuginfo_spec :
    ∀ (ring_datasize : Nat) (debug_info : hv_ring_buffer_debug_info)
      (rb : hv_ring_buffer),
      hv_ringbuffer_get_debuginfo none ring_datasize debug_info = debug_info ∧
      hv_ringbuffer_get_debuginfo (some rb) ring_datasize debug_info =
        { bytes_avail_toread :=
            (hv_get_ringbuffer_availbytes rb ring_datasize).1
          bytes_avail_towrite :=
            (hv_get_ringbuffer_availbytes rb ring_datasize).2
          current_read_index := rb.read_index
          current_write_index := rb.write_index
          current_interrupt_mask := rb.interrupt_mask } :=
  fun _ _ _ => ⟨rfl, rfl⟩

/-- C7: after a successful write, the 8 trailing bytes appended after
the caller's segments are the little-endian image of the u64
`old_write << 32` — the pre-write write-index snapshot (the value of
`write_index` before this write was published) encoded in the high half
of the back-link word, recoverable as the decoded word divided by
`2 ^ 32`. -/
theorem hv_write_backlink (ring_info : hv_ring_buffer_info)
    (kv_list : List (List Nat)) (signal0 lock : Bool)
    (hb : ring_info.ring_buffer.buffer.length = ring_info.ring_datasize)
    (hw : ring_info.ring_buffer.write_index < ring_info.ring_datasize)
    (hd32 : ring_info.ring_datasize ≤ 2 ^ 32)
    (hno : kv_list.flatten.length + 8 < 2 ^ 32)
    (hret : (hv_ringbuffer_write ring_info kv_list signal0 lock).ret = 0) :
    ringReadBytes (hv_ringbuffer_write ring_info kv_list signal0
        lock).ring.ring_buffer.buffer
      (ring_info.ring_buffer.write_index + kv_list.flatten.length) 8
      = u64_bytes (ring_info.ring_buffer.write_index * 2 ^ 32) ∧
    bytes_to_u64 (u64_bytes (ring_info.ring_buffer.write_index * 2 ^ 32)) 0
      = ring_info.ring_buffer.write_index * 2 ^ 32 ∧
    ring_info.ring_buffer.write_index * 2 ^ 32 / 2 ^ 32
      = ring_info.ring_buffer.write_index := by
  set d := ring_info.ring_datasize with hdd
  set w := ring_info.ring_buffer.write_index with hww
  by_cases hc : (hv_get_ringbuffer_availbytes ring_info.ring_buffer
      ring_info.ring_datasize).2
      ≤ (kv_list.foldl (fun acc kv => (acc + kv.length) % 2 ^ 32) 0 + 8) % 2 ^ 32
  · have hfail : (hv_ringbuffer_write ring_info kv_list signal0 lock).ret = -11 := by
      simp only [hv_ringbuffer_write]
      rw [if_pos hc]
    rw [hfail] at hret
    exact absurd hret (by decide)
  · have hmaplen : (kv_list.map List.length).sum = kv_list.flatten.length :=
      (List.length_flatten kv_list).symm
    have htot : (kv_list.foldl (fun acc kv => (acc + kv.length) % 2 ^ 32) 0 + 8)
        % 2 ^ 32 = kv_list.flatten.length + 8 := by
      rw [fold_mod_sum kv_list 0 (by omega), hmaplen]
      omega
    have havd : (hv_get_ringbuffer_availbytes ring_info.ring_buffer
        ring_info.ring_datasize).2 ≤ d := by
      simp only [hv_get_ringbuffer_availbytes]
      omega
    rw [htot] at hc
    have hflatd : kv_list.flatten.length + 8 < d := by omega
    have hd : 0 < d := by omega
    set step := kv_list.foldl
      (fun (st : hv_ring_buffer_info × Nat) kv => hv_copyto_ringbuffer st.1 st.2 kv)
      (ring_info, w) with hstep
    set step2 := hv_copyto_ringbuffer step.1 step.2
      (u64_bytes (hv_get_ring_bufferindices step.1)) with hstep2
    have hred : hv_ringbuffer_write ring_info kv_list signal0 lock =
        { ret := 0
          signal := hv_need_to_signal w (hv_set_next_write_location step2.1 step2.2)
          ring := hv_set_next_write_location step2.1 step2.2 } := by
      rw [hstep2, hstep]
      simp only [hv_ringbuffer_write, hv_get_next_write_location, ← hww]
      rw [if_neg (by rw [htot]; exact hc)]
    rw [hred]
    have hfold := fold_copyto_spec kv_list ring_info w hb hd hw (by omega)
    rw [← hstep] at hfold
    obtain ⟨hsnd, hblen, hin, hout⟩ := hfold
    have hff := fold_copyto_fields kv_list (ring_info, w)
    rw [← hstep] at hff
    have hd1 : step.1.ring_datasize = d := hff.2.2.2.2.2.2
    have hb1 : step.1.ring_buffer.buffer.length = step.1.ring_datasize := by
      rw [hd1]
      exact hblen
    have hs1 : step.2 < step.1.ring_datasize := by
      rw [hd1, hsnd]
      exact Nat.mod_lt _ hd
    have hbl8 : (u64_bytes (hv_get_ring_bufferindices step.1)).length
        ≤ step.1.ring_datasize := by
      rw [length_u64_bytes, hd1]
      omega
    have hpi : hv_get_ring_bufferindices step.1 = w * 2 ^ 32 := by
      simp only [hv_get_ring_bufferindices, hff.1]
      rw [← hww, Nat.mod_eq_of_lt (by omega)]
    have hb2len : step2.1.ring_buffer.buffer.length = d := by
      have := copyto_length step.1 step.2
        (u64_bytes (hv_get_ring_bufferindices step.1)) hb1 hs1 hbl8
      rw [← hstep2] at this
      rw [this, hd1]
    have hfr := set_write_fields step2.1 step2.2
    refine ⟨?_, decode_u64_bytes _ (by omega), by omega⟩
    rw [hfr.2.2.2.2.1]
    apply list_ext_getD
    · rw [length_ringReadBytes, length_u64_bytes]
    · intro i hi
      rw [length_ringReadBytes] at hi
      rw [getD_ringReadBytes _ _ _ _ hi]
      have hidx : (step.2 + i) % d = (w + kv_list.flatten.length + i) % d := by
        rw [hsnd, ← hdd]
        exact Nat.mod_add_mod _ _ _
      have hco := copyto_getD_in step.1 step.2
        (u64_bytes (hv_get_ring_bufferindices step.1)) hb1
        (by rw [hd1]; exact hd) hs1 hbl8 i (by rw [length_u64_bytes]; omega)
      rw [← hstep2, hd1] at hco
      simp only [ringGet, hb2len]
      rw [← hidx, hco, hpi]

/-- Witness for C7: after writing `pkt7` into `ring60` (pre-write index
60), the 8 bytes following the 24 packet bytes decode to `60 << 32`,
whose high half is the pre-write index 60. -/
theorem hv_write_backlink_witness :
    ring60.ring_buffer.buffer.length = ring60.ring_datasize ∧
    ring60.ring_buffer.write_index < ring60.ring_datasize ∧
    (hv_ringbuffer_write ring60 [descBytes pkt7, pkt7.payload] false true).ret
      = 0 ∧
    (ringReadBytes (hv_ringbuffer_write ring60 [descBytes pkt7, pkt7.payload]
          false true).ring.ring_buffer.buffer
        (ring60.ring_buffer.write_index
          + ([descBytes pkt7, pkt7.payload] : List (List Nat)).flatten.length) 8
      = u64_bytes (ring60.ring_buffer.write_index * 2 ^ 32) ∧
     bytes_to_u64 (u64_bytes (ring60.ring_buffer.write_index * 2 ^ 32)) 0
      = ring60.ring_buffer.write_index * 2 ^ 32 ∧
     ring60.ring_buffer.write_index * 2 ^ 32 / 2 ^ 32
      = ring60.ring_buffer.write_index) :=
  ⟨by decide, by decide, by decide,
   hv_write_backlink ring60 [descBytes pkt7, pkt7.payload] false true
     (by decide) (by decide) (by decide) (by decide) (by decide)⟩
